import Mathlib

/-!
usd-converter-backend: quote extraction and statistics

A shallow embedding of `src/index.js`: the number normalizer
`parseCurrencyNumber`, the price extractor `extractFromHtml`, the quote builder
`fetchQuoteFromSource` and the statistics `computeAverage` / `computeSlippage`.

Modelling conventions.

* A JavaScript string is a `List Char`.
* A JavaScript number is a `JsNumber`: a finite double, given by the rational it
  is equal to, or `-0`, `Infinity`, `-Infinity`, `NaN`.  Conversions and
  arithmetic round to the nearest double, ties to even (`toDouble`), with
  overflow to an infinity and underflow to a zero; `null` is `none`.
* `cheerio.load` is a library call.  The embedding starts from its result, a
  document tree (`Dom`), and models the three queries the code issues on it:
  `$("*")` with `.text()`, `$(".cls").first().text()` and `$("body").text()`.
* `String.prototype.toLowerCase` depends on the Unicode tables of the runtime;
  it is a parameter of the extractor.
-/

namespace UsdConverter

/-! ## JavaScript string primitives -/

/-- Code points of the regular-expression class `\s`, which are also the ones
removed by `String.prototype.trim` (WhiteSpace and LineTerminator). -/
def isSpace (c : Char) : Bool :=
  c.toNat ∈ [9, 10, 11, 12, 13, 32, 0xA0, 0x1680, 0x2028, 0x2029, 0x202F, 0x205F, 0x3000, 0xFEFF]
    || (0x2000 ≤ c.toNat && c.toNat ≤ 0x200A)

/-- The class `\d` and the range `0-9`: the ten ASCII digits. -/
def isDigit (c : Char) : Bool :=
  48 ≤ c.toNat && c.toNat ≤ 57

/-- The class `[0-9.,]` of the capture groups. -/
def isNumberChar (c : Char) : Bool :=
  isDigit c || c == '.' || c == ','

/-- Complement of the class `[^\d.,\-]` of line 62: the characters that survive the cleaning. -/
def isKept (c : Char) : Bool :=
  isDigit c || c == '.' || c == ',' || c == '-'

/-- The method `String.prototype.trim`. -/
def trim (s : List Char) : List Char :=
  ((s.dropWhile isSpace).reverse.dropWhile isSpace).reverse

/-- The call `s.lastIndexOf(c)` for a one-character needle: the last index holding `c`, or `-1`. -/
def lastIndexOf (c : Char) : List Char → Int
  | [] => -1
  | x :: xs =>
    let r := lastIndexOf c xs
    if 0 ≤ r then r + 1 else if x == c then 0 else -1

/-- The call `s.replace(c, d)` with a string pattern: only the first occurrence is replaced. -/
def replaceFirst (c d : Char) : List Char → List Char
  | [] => []
  | x :: xs => if x == c then d :: xs else x :: replaceFirst c d xs

/-- The call `s.replace(/c/g, "")`: every occurrence of the character is removed. -/
def removeAll (c : Char) (s : List Char) : List Char :=
  s.filter (fun x => x != c)

/-- Value of a string of decimal digits. -/
def digitsToNat (ds : List Char) : Nat :=
  ds.foldl (fun acc c => 10 * acc + (c.toNat - 48)) 0

/-! ## JavaScript numbers -/

/-- A JavaScript number: a finite double other than `-0`, given by its exact value (`+0` is
`finite 0`), or `-0`, `Infinity`, `-Infinity`, `NaN`. -/
inductive JsNumber where
  | finite (q : ℚ)
  | negZero
  | posInf
  | negInf
  | nan
  deriving DecidableEq, Repr

/-- The integer nearest to `n / d`, a tie going to the even one. -/
def roundHalfEven (n d : ℕ) : ℕ :=
  let q := n / d
  let r := n % d
  if 2 * r < d then q else if d < 2 * r then q + 1 else if q % 2 = 0 then q else q + 1

/-- Bisection for the largest `k` in `[lo, hi)` with `d * 2 ^ k ≤ a`, that is with
`2 ^ k ≤ a / d`; the first argument is the number of halvings. -/
def searchExponent (a d : ℕ) : ℕ → ℕ → ℕ → ℕ
  | 0, lo, _ => lo
  | fuel + 1, lo, hi =>
    let mid := (lo + hi) / 2
    if d * 2 ^ mid ≤ a then searchExponent a d fuel mid hi else searchExponent a d fuel lo mid

/-- Round the positive rational `n / d` to a double.  Everything is counted in units of
`2 ^ (-1074)`, the smallest positive double: with `a / d` the value in these units, `k` is
the binary exponent of the value (at least 52, the exponent of the smallest normal number),
`2 ^ (k - 52)` the spacing of the doubles around it, and the result the nearest multiple of
that spacing, ties to even.  `none` is overflow: the rounded value reaches `2 ^ 1024`. -/
def roundMagnitude (n d : ℕ) : Option ℕ :=
  let a := n * 2 ^ 1074
  if d * 2 ^ 2098 ≤ a then none
  else
    let k := if a < d * 2 ^ 52 then 52 else searchExponent a d 11 52 2098
    let m := roundHalfEven a (d * 2 ^ (k - 52)) * 2 ^ (k - 52)
    if 2 ^ 2098 ≤ m then none else some m

/-- The Number value of a real number: the nearest double, ties to even; a value that rounds
to `2 ^ 1024` or beyond is an infinity and one that rounds to nothing is a zero of its sign. -/
def toDouble (q : ℚ) : JsNumber :=
  match roundMagnitude q.num.natAbs q.den with
  | none => if q.num < 0 then .negInf else .posInf
  | some m =>
    if m = 0 then (if q.num < 0 then .negZero else .finite 0)
    else .finite (mkRat (if q.num < 0 then -(m : ℤ) else (m : ℤ)) (2 ^ 1074))

/-- The builtin `Number.isFinite` on a number. -/
def isFinite : JsNumber → Bool
  | .finite _ => true
  | .negZero => true
  | _ => false

/-- The number is negative or `-0`: its sign bit is set (`NaN` has no sign here). -/
def signBit : JsNumber → Bool
  | .finite q => decide (q < 0)
  | .negZero => true
  | .negInf => true
  | _ => false

/-- Unary minus. -/
def negate : JsNumber → JsNumber
  | .finite q => if q = 0 then .negZero else .finite (-q)
  | .negZero => .finite 0
  | .posInf => .negInf
  | .negInf => .posInf
  | .nan => .nan

/-- The exact value of a finite number. -/
def valueOf : JsNumber → ℚ
  | .finite q => q
  | _ => 0

/-- The operator `+` on numbers. -/
def fadd : JsNumber → JsNumber → JsNumber
  | .nan, _ => .nan
  | _, .nan => .nan
  | .posInf, .negInf => .nan
  | .negInf, .posInf => .nan
  | .posInf, _ => .posInf
  | _, .posInf => .posInf
  | .negInf, _ => .negInf
  | _, .negInf => .negInf
  | .negZero, .negZero => .negZero
  | .negZero, .finite q => .finite q
  | .finite p, .negZero => .finite p
  | .finite p, .finite q => toDouble (p + q)

/-- The operator `-` on numbers. -/
def fsub (a b : JsNumber) : JsNumber :=
  fadd a (negate b)

/-- An infinity of the given sign. -/
def infinityOf (negative : Bool) : JsNumber :=
  if negative then .negInf else .posInf

/-- A zero of the given sign. -/
def zeroOf (negative : Bool) : JsNumber :=
  if negative then .negZero else .finite 0

/-- The operator `/` on numbers. -/
def fdiv (a b : JsNumber) : JsNumber :=
  match a, b with
  | .nan, _ => .nan
  | _, .nan => .nan
  | .posInf, .posInf => .nan
  | .posInf, .negInf => .nan
  | .negInf, .posInf => .nan
  | .negInf, .negInf => .nan
  | .posInf, b => infinityOf (signBit b)
  | .negInf, b => infinityOf (!signBit b)
  | a, .posInf => zeroOf (signBit a)
  | a, .negInf => zeroOf (!signBit a)
  | a, b =>
    if valueOf b = 0 then
      if valueOf a = 0 then .nan else infinityOf (signBit a != signBit b)
    else if valueOf a = 0 then zeroOf (signBit a != signBit b)
    else toDouble (valueOf a / valueOf b)

/-- The value `Number(x.toFixed(6))`.  A non-finite `x` prints as its name and reads back
unchanged, and so does a number of magnitude `1e21` or more, which prints in full.
Otherwise `toFixed` takes the integer `n` nearest to a million times the magnitude, the
larger one at a tie, and prints `n / 10^6` with a `-` when `x < 0`; `-0` prints without
sign, and a negative `x` with `n = 0` prints `-0.000000`, which reads back as `-0`. -/
def toFixed6 : JsNumber → JsNumber
  | .nan => .nan
  | .posInf => .posInf
  | .negInf => .negInf
  | .negZero => .finite 0
  | .finite x =>
    if 10 ^ 21 ≤ |x| then .finite x
    else
      let n : ℤ := ⌊|x| * 10 ^ 6 + 1 / 2⌋
      if x < 0 then (if n = 0 then .negZero else toDouble (-((n : ℚ) / 10 ^ 6)))
      else toDouble ((n : ℚ) / 10 ^ 6)

/-- JavaScript truthiness of a value that is `null` or a number: `null`, the two zeros and
`NaN` are falsy. -/
def truthy : Option JsNumber → Bool
  | some (.finite q) => q != 0
  | some .posInf => true
  | some .negInf => true
  | _ => false

/-- The comparison `n > c` against a constant. -/
def greaterThan (n : JsNumber) (c : ℚ) : Bool :=
  match n with
  | .finite q => decide (c < q)
  | .negZero => decide (c < 0)
  | .posInf => true
  | _ => false

/-- The comparison `n < c` against a constant. -/
def lessThan (n : JsNumber) (c : ℚ) : Bool :=
  match n with
  | .finite q => decide (q < c)
  | .negZero => decide (0 < c)
  | .negInf => true
  | _ => false

/-- The builtin `parseFloat` on the alphabet that line 62 leaves (digits, `.`, `,`, `-`), where the
grammar of a decimal literal has no exponent and no `Infinity`: an optional `-`, then
either digits with an optional `.` and optional digits, or `.` followed by digits.  The
longest such prefix is converted to the nearest double; without such a prefix the result
is `NaN`. -/
def parseFloat (s : List Char) : JsNumber :=
  let neg := s.head? == some '-'
  let r := if neg then s.drop 1 else s
  let ip := r.takeWhile isDigit
  let fp := match r.dropWhile isDigit with
    | '.' :: r2 => r2.takeWhile isDigit
    | _ => []
  if ip.isEmpty && fp.isEmpty then .nan
  else
    let n := toDouble (mkRat ((digitsToNat ip * 10 ^ fp.length + digitsToNat fp : ℕ) : ℤ)
      (10 ^ fp.length))
    if neg then negate n else n

/-- Lines 58-81.  The argument is a string at every call site, so the `s == null` guard of
line 59 is not reachable and the input type is a string. -/
def parseCurrencyNumber (s : List Char) : Option JsNumber :=
  let s := trim s
  let s := s.filter isKept
  let s :=
    if s.contains ',' && s.contains '.' then
      if lastIndexOf '.' s < lastIndexOf ',' s then
        replaceFirst ',' '.' (removeAll '.' s)
      else
        removeAll ',' s
    else if s.contains ',' then
      replaceFirst ',' '.' (removeAll '.' s)
    else
      removeAll ',' s
  let n := parseFloat s
  if isFinite n then some n else none

/-! ## Regular expressions of the extractor -/

/-- Canonicalization used by a regular expression with the `i` flag and without the `u`
flag, on the characters that occur in the patterns of this file: an ASCII letter and
`ó` are compared through their upper-case form.  A text character equals a pattern letter
under this map exactly when it is that letter in either case. -/
def canonicalize (c : Char) : Char :=
  if 97 ≤ c.toNat && c.toNat ≤ 122 then Char.ofNat (c.toNat - 32)
  else if c.toNat == 243 then Char.ofNat 211
  else c

/-- Match a literal at the head of the text, case-insensitively; the rest of the text on success. -/
def dropLiteralCI : List Char → List Char → Option (List Char)
  | [], s => some s
  | _ :: _, [] => none
  | p :: ps, c :: cs => if canonicalize p == canonicalize c then dropLiteralCI ps cs else none

/-- Match a literal at the head of the text, case-sensitively. -/
def startsWith : List Char → List Char → Bool
  | [], _ => true
  | _ :: _, [] => false
  | p :: ps, c :: cs => p == c && startsWith ps cs

/-- The test `/lit/.test(s)` for a literal pattern: the literal occurs somewhere in the text. -/
def containsLiteral (lit : List Char) : List Char → Bool
  | [] => startsWith lit []
  | c :: cs => startsWith lit (c :: cs) || containsLiteral lit cs

/-- The pattern `label[:\s]*([0-9.,]+)` (flag `i`) tried at the head of the text.  The two
classes are disjoint, so the greedy `[:\s]*` takes the whole run and the group is the
maximal run of `[0-9.,]` that follows it. -/
def matchLabelAt (label s : List Char) : Option (List Char) :=
  match dropLiteralCI label s with
  | none => none
  | some r =>
    let g := (r.dropWhile (fun c => c == ':' || isSpace c)).takeWhile isNumberChar
    if g.isEmpty then none else some g

/-- The call `s.match(/label[:\s]*([0-9.,]+)/i)`: group 1 of the leftmost match, if any. -/
def matchLabel (label : List Char) : List Char → Option (List Char)
  | [] => matchLabelAt label []
  | c :: cs =>
    match matchLabelAt label (c :: cs) with
    | some g => some g
    | none => matchLabel label cs

/-- The alternation `(USD|Dólar|Dolar)` (flag `i`) at the head of the text. -/
def dropUnit (s : List Char) : Option (List Char) :=
  match dropLiteralCI "USD".data s with
  | some r => some r
  | none =>
    match dropLiteralCI "Dólar".data s with
    | some r => some r
    | none => dropLiteralCI "Dolar".data s

/-- The pattern `1\s*(USD|Dólar|Dolar)\s*[=:\-]\s*([0-9.,]+)` (flag `i`) tried at the head of
the text; the result is group 2. -/
def matchUsdAt (s : List Char) : Option (List Char) :=
  match s with
  | '1' :: r =>
    match dropUnit (r.dropWhile isSpace) with
    | none => none
    | some r1 =>
      match r1.dropWhile isSpace with
      | c :: r2 =>
        if c == '=' || c == ':' || c == '-' then
          let g := (r2.dropWhile isSpace).takeWhile isNumberChar
          if g.isEmpty then none else some g
        else none
      | [] => none
  | _ => none

/-- The call `bodyText.match(rx1)`: group 2 of the leftmost match of line 156, if any. -/
def matchUsd : List Char → Option (List Char)
  | [] => none
  | c :: cs =>
    match matchUsdAt (c :: cs) with
    | some g => some g
    | none => matchUsd cs

/-- The pattern `[0-9]+(?:[.,][0-9]{1,4})?` tried at the head of the text: the matched
string and the rest of the text.  The digit run is maximal; the optional group is taken
when a `.` or `,` is followed by at least one digit, and then takes up to four digits. -/
def matchNumberAt (s : List Char) : Option (List Char × List Char) :=
  let ip := s.takeWhile isDigit
  if ip.isEmpty then none
  else
    match s.dropWhile isDigit with
    | sep :: r =>
      let fp := (r.takeWhile isDigit).take 4
      if (sep == '.' || sep == ',') && !fp.isEmpty then
        some (ip ++ sep :: fp, r.drop fp.length)
      else some (ip, sep :: r)
    | [] => some (ip, [])

/-- Successive non-overlapping matches of the pattern of line 165, left to right.  The first
argument bounds the number of steps; every step consumes at least one character. -/
def scanNumbersFrom : Nat → List Char → List (List Char)
  | 0, _ => []
  | _ + 1, [] => []
  | fuel + 1, c :: cs =>
    match matchNumberAt (c :: cs) with
    | some (m, rest) => m :: scanNumbersFrom fuel rest
    | none => scanNumbersFrom fuel cs

/-- The expression `bodyText.match(/[0-9]+(?:[.,][0-9]{1,4})?/g) || []`. -/
def scanNumbers (s : List Char) : List (List Char) :=
  scanNumbersFrom s.length s

/-- The expression `Array.from(new Set(arr))`: a value is appended unless it is already present. -/
def uniqueInOrder (arr : List (List Char)) : List (List Char) :=
  arr.foldl (fun acc x => if acc.contains x then acc else acc ++ [x]) []

/-- The call `text.replace(/\s+/g, " ")`: every maximal run of white space becomes one blank. -/
def collapseSpaces : List Char → List Char
  | [] => []
  | c :: cs =>
    if isSpace c then
      if (cs.head?.map isSpace).getD false then collapseSpaces cs else ' ' :: collapseSpaces cs
    else c :: collapseSpaces cs

/-! ## The document tree and the queries of the extractor -/

/-- A node of the tree built by `cheerio.load`: a text node, an element with its tag name,
its class list and its children, or any other node (comment, doctype), which has no text. -/
inductive Node where
  | text (data : String)
  | other
  | element (name : String) (classes : List String) (children : List Node)

/-- The children of the document root, in document order. -/
abbrev Dom := List Node

mutual
/-- The query `$(el).text()`: the concatenated data of the text nodes below the node. -/
def textContent : Node → List Char
  | .text d => d.data
  | .other => []
  | .element _ _ cs => textContentList cs
/-- Text of a list of sibling nodes, concatenated in document order. -/
def textContentList : List Node → List Char
  | [] => []
  | n :: ns => textContent n ++ textContentList ns
end

mutual
/-- The query `$("*")` below one node: the node itself when it is an element, then the
elements below it, in document order. -/
def allElements : Node → List Node
  | .text _ => []
  | .other => []
  | .element n cl cs => .element n cl cs :: allElementsList cs
/-- Elements of a list of sibling nodes, in document order. -/
def allElementsList : List Node → List Node
  | [] => []
  | n :: ns => allElements n ++ allElementsList ns
end

/-- The element carries the class. -/
def hasClass (cls : String) : Node → Bool
  | .element _ cl _ => cl.contains cls
  | _ => false

/-- The element has the tag name. -/
def hasName (name : String) : Node → Bool
  | .element n _ _ => n == name
  | _ => false

/-- The elements of the whole document, in document order. -/
def domElements (dom : Dom) : List Node :=
  allElementsList dom

/-- The query `$("." + cls).first().text()`: the text of the first element carrying the class, and
the empty string when no element carries it. -/
def classText (dom : Dom) (cls : String) : List Char :=
  match ((domElements dom).filter (hasClass cls)).head? with
  | some el => textContent el
  | none => []

/-- The query `$("body").text()`: the texts of the elements named `body`, concatenated. -/
def bodyText (dom : Dom) : List Char :=
  (((domElements dom).filter (hasName "body")).map textContent).flatten

/-! ## The extractor -/

/-- The result of `extractFromHtml`. -/
structure PricePair where
  buy : Option JsNumber
  sell : Option JsNumber
  deriving DecidableEq, Repr

/-- The expression `a || b`. -/
def orElse (a b : Option JsNumber) : Option JsNumber :=
  if truthy a then a else b

/-- The text that the callback of line 124 works on (line 126). -/
def normalizeText (toLowerCase : List Char → List Char) (raw : List Char) : List Char :=
  toLowerCase (trim (collapseSpaces raw))

/-- One field update of the callback of lines 124-137: when the field is still falsy and the
text holds the label, the number after the leftmost labelled match is normalized into it. -/
def scanField (label : List Char) (cur : Option JsNumber) (text : List Char) :
    Option JsNumber :=
  if !truthy cur && containsLiteral label text then
    match matchLabel label text with
    | some g => parseCurrencyNumber g
    | none => cur
  else cur

/-- The callback of lines 124-137 applied to one element, given the text of the element. -/
def scanElement (toLowerCase : List Char → List Char) (st : PricePair) (raw : List Char) :
    PricePair :=
  if truthy st.buy && truthy st.sell then st
  else
    let text := normalizeText toLowerCase raw
    if text.isEmpty then st
    else ⟨scanField "compra".data st.buy text, scanField "venta".data st.sell text⟩

/-- Strategy 1, lines 121-137: the labelled scan over all elements in document order. -/
def strategy1 (toLowerCase : List Char → List Char) (dom : Dom) : PricePair :=
  ((domElements dom).map textContent).foldl (scanElement toLowerCase) ⟨none, none⟩

/-- Lines 140-147: the first class selector of the list whose text normalizes to a truthy number. -/
def trySelectors (dom : Dom) : List String → Option JsNumber
  | [] => none
  | sel :: rest =>
    let n := parseCurrencyNumber (classText dom sel)
    if truthy n then n else trySelectors dom rest

/-- Class names of the selectors of line 149. -/
def buySelectors : List String := ["compra", "buy", "valor-compra", "price--buy", "buy-price"]

/-- Class names of the selectors of line 150. -/
def sellSelectors : List String := ["venta", "sell", "valor-venta", "price--sell", "sell-price"]

/-- Strategy 2, lines 149-150. -/
def strategy2 (dom : Dom) (st : PricePair) : PricePair :=
  ⟨orElse st.buy (trySelectors dom buySelectors), orElse st.sell (trySelectors dom sellSelectors)⟩

/-- Strategy 3, lines 154-162: the body of the guard of line 153 up to the second guard. -/
def strategy3 (dom : Dom) (st : PricePair) : PricePair :=
  match matchUsd (bodyText dom) with
  | some g =>
    let val := parseCurrencyNumber g
    ⟨if !truthy st.buy then val else st.buy, if !truthy st.sell then val else st.sell⟩
  | none => st

/-- The array `candidates` of lines 165-166. -/
def candidates (dom : Dom) : List JsNumber :=
  (((uniqueInOrder (scanNumbers (bodyText dom))).take 20).map parseCurrencyNumber).filterMap
    (fun n => match n with
      | some v => if truthy (some v) && greaterThan v 1 && lessThan v 10000 then some v else none
      | none => none)

/-- Strategy 4, lines 164-169. -/
def strategy4 (dom : Dom) (st : PricePair) : PricePair :=
  if !truthy st.buy || !truthy st.sell then
    let cs := candidates dom
    ⟨if !truthy st.buy && !cs.isEmpty then cs.head? else st.buy,
     if !truthy st.sell && !cs.isEmpty then orElse (cs.get? 1) cs.head? else st.sell⟩
  else st

/-- The state after Strategies 1 and 2. -/
def afterStrategy2 (toLowerCase : List Char → List Char) (dom : Dom) : PricePair :=
  strategy2 dom (strategy1 toLowerCase dom)

/-- The state after Strategies 1, 2 and 3. -/
def afterStrategy3 (toLowerCase : List Char → List Char) (dom : Dom) : PricePair :=
  strategy3 dom (afterStrategy2 toLowerCase dom)

/-- Lines 109-173.  `none` is absent markup (`null`, or the empty string, both falsy at
line 110); the second argument is not used by the code. -/
def extractFromHtml (toLowerCase : List Char → List Char) (html : Option Dom)
    (preferCurrencyCode : String) : PricePair :=
  match html, preferCurrencyCode with
  | none, _ => ⟨none, none⟩
  | some dom, _ =>
    let st := afterStrategy2 toLowerCase dom
    if !truthy st.buy || !truthy st.sell then strategy4 dom (strategy3 dom st) else st

/-! ## Quotes and statistics -/

/-- The object built by `fetchQuoteFromSource`. -/
structure Quote where
  buy_price : Option JsNumber
  sell_price : Option JsNumber
  source : String
  deriving DecidableEq, Repr

/-- Lines 176-185.  `fetchPage` is the awaited result of the page fetch: the parsed page,
or `none` after a failed request (line 104). -/
def fetchQuoteFromSource (toLowerCase : List Char → List Char) (fetchPage : String → Option Dom)
    (url region : String) : Quote :=
  let html := fetchPage url
  let extracted := extractFromHtml toLowerCase html (if region == "br" then "BRL" else "ARS")
  { buy_price := extracted.buy, sell_price := extracted.sell, source := url }

/-- The result of `computeAverage`. -/
structure AverageStats where
  average_buy_price : Option JsNumber
  average_sell_price : Option JsNumber
  deriving DecidableEq, Repr

/-- The filter `n => Number.isFinite(n)` of lines 219-220: `null` and the non-finite numbers
are dropped. -/
def finitePrices (prices : List (Option JsNumber)) : List JsNumber :=
  prices.filterMap (fun p => match p with
    | some n => if isFinite n then some n else none
    | none => none)

/-- Lines 221-223 for one side: the prices that pass `Number.isFinite` are added up from `0`
in array order and the sum is divided by their count, in double arithmetic; an empty array
gives `null`; the result goes through `toFixed(6)` and `Number`. -/
def averageOf (prices : List (Option JsNumber)) : Option JsNumber :=
  let present := finitePrices prices
  let avg : Option JsNumber :=
    if present.length ≠ 0 then
      some (fdiv (present.foldl (fun a b => fadd a b) (.finite 0)) (.finite (present.length : ℚ)))
    else none
  match avg with
  | some a => some (toFixed6 a)
  | none => none

/-- Lines 218-225. -/
def computeAverage (quotes : List Quote) : AverageStats :=
  { average_buy_price := averageOf (quotes.map Quote.buy_price),
    average_sell_price := averageOf (quotes.map Quote.sell_price) }

/-- An element of the result of `computeSlippage`. -/
structure SlippageRecord where
  source : String
  buy_price_slippage : Option JsNumber
  sell_price_slippage : Option JsNumber
  deriving DecidableEq, Repr

/-- Lines 229-231 and 232-234: the slippage of one side. -/
def slippageOf (price avg : Option JsNumber) : Option JsNumber :=
  match price, avg with
  | some p, some a => some (toFixed6 (fdiv (fsub p a) a))
  | _, _ => none

/-- Lines 227-237. -/
def computeSlippage (quotes : List Quote) (avg : AverageStats) : List SlippageRecord :=
  quotes.map (fun q =>
    { source := q.source,
      buy_price_slippage := slippageOf q.buy_price avg.average_buy_price,
      sell_price_slippage := slippageOf q.sell_price avg.average_sell_price })

/-! ## Concrete pages -/

/-- ASCII lower-casing: what `toLowerCase` does on ASCII text. -/
def asciiLower (s : List Char) : List Char :=
  s.map (fun c => if 65 ≤ c.toNat && c.toNat ≤ 90 then Char.ofNat (c.toNat + 32) else c)

/-- The document `<html><head></head><body>t</body></html>`. -/
def pageOfText (t : String) : Dom :=
  [.element "html" [] [.element "head" [] [], .element "body" [] [.text t]]]

/-! ## Vocabulary of the statements -/

/-- No character of the string is a decimal digit. -/
def NoDigit (s : List Char) : Prop :=
  ∀ c ∈ s, isDigit c = false

instance (s : List Char) : Decidable (NoDigit s) := by
  unfold NoDigit
  infer_instance

/-- Every character of the string is a decimal digit. -/
def AllDigits (s : List Char) : Prop :=
  ∀ c ∈ s, isDigit c = true

instance (s : List Char) : Decidable (AllDigits s) := by
  unfold AllDigits
  infer_instance

/-- The number written `ip.fp` in decimal: integer digits `ip`, fraction digits `fp`. -/
def decimalValue (ip fp : List Char) : ℚ :=
  (digitsToNat ip : ℚ) + (digitsToNat fp : ℚ) / 10 ^ fp.length

/-- The separator handling of lines 64-78, on the cleaned string. -/
def normalizeSeparators (s : List Char) : List Char :=
  if s.contains ',' && s.contains '.' then
    if lastIndexOf '.' s < lastIndexOf ',' s then
      replaceFirst ',' '.' (removeAll '.' s)
    else
      removeAll ',' s
  else if s.contains ',' then
    replaceFirst ',' '.' (removeAll '.' s)
  else
    removeAll ',' s

/-- Every character is a digit, a period or a comma. -/
def AllNumberChars (s : List Char) : Prop :=
  ∀ c ∈ s, isNumberChar c = true

/-- Digit groups written with a grouping separator between consecutive groups. -/
def groupsJoined (sep : Char) : List (List Char) → List Char
  | [] => []
  | [g] => g
  | g :: g2 :: gs => g ++ sep :: groupsJoined sep (g2 :: gs)

/-- The number `r` is `x` rounded to 6 decimal digits: the double nearest to a whole number
of millionths that lies at most half a millionth from `x` (`-0` standing for a zero
number of millionths below a negative `x`). -/
def IsRounded6 (x : ℚ) (r : JsNumber) : Prop :=
  ∃ k : ℤ, |(k : ℚ) / 10 ^ 6 - x| ≤ 1 / (2 * 10 ^ 6)
    ∧ (r = toDouble ((k : ℚ) / 10 ^ 6) ∨ (k = 0 ∧ x < 0 ∧ r = JsNumber.negZero))

/-- The mean as the code computes it: the sum from `0` in list order, then the quotient by the
count, every operation rounded to a double. -/
def doubleMean (ps : List JsNumber) : JsNumber :=
  fdiv (ps.foldl (fun a b => fadd a b) (.finite 0)) (.finite (ps.length : ℚ))

/-- The result of line 80 for a parsed number: the number when it is finite, else `null`. -/
def finiteOrNull (n : JsNumber) : Option JsNumber :=
  if isFinite n then some n else none

/-- A string of `n` copies of a character. -/
def repeated (n : ℕ) (c : Char) : String :=
  String.mk (List.replicate n c)

/-- Words of C10, "removing duplicate strings while keeping the first occurrence". -/
def dedupKeepFirst : List (List Char) → List (List Char)
  | [] => []
  | x :: xs => x :: (dedupKeepFirst xs).filter (fun y => y != x)

/-- Words of C10: the substrings of price shape found by the scan, without duplicates, at
most the first 20, each normalized, and of those values the ones with `1 < v < 10000`. -/
def specCandidates (body : List Char) : List JsNumber :=
  (((dedupKeepFirst (scanNumbers body)).take 20).filterMap parseCurrencyNumber).filter
    (fun v => greaterThan v 1 && lessThan v 10000)

/-- Words of C10 for the sell side: the second element, or the first when there is exactly
one, and absent when there is none. -/
def secondOrFirst : List JsNumber → Option JsNumber
  | [] => none
  | [c] => some c
  | _ :: c :: _ => some c

/-- The literal occurs somewhere in the text, in any letter case. -/
def containsLiteralCI (lit : List Char) : List Char → Bool
  | [] => (dropLiteralCI lit []).isSome
  | c :: cs => (dropLiteralCI lit (c :: cs)).isSome || containsLiteralCI lit cs

/-- A plain decimal number: integer digits, and a period with fraction digits when there are any. -/
def renderDecimal (ip fp : List Char) : List Char :=
  if fp.isEmpty then ip else ip ++ '.' :: fp

/-- Words of C10, "integer or integer plus a `.`/`,` and 1-4 fractional digits". -/
def PriceShape (m : List Char) : Prop :=
  ∃ ip fp : List Char, ip ≠ [] ∧ AllDigits ip ∧ AllDigits fp ∧ fp.length ≤ 4
    ∧ (m = ip ∨ (fp ≠ [] ∧ (m = ip ++ '.' :: fp ∨ m = ip ++ ',' :: fp)))


/-! ## Lemmas on the string primitives -/

theorem takeWhile_isDigit_of_noDigit {s : List Char} (h : NoDigit s) :
    s.takeWhile isDigit = [] := by
  cases s with
  | nil => rfl
  | cons a t => simp [List.takeWhile, h a (by simp)]

theorem dropWhile_isDigit_of_noDigit {s : List Char} (h : NoDigit s) :
    s.dropWhile isDigit = s := by
  cases s with
  | nil => rfl
  | cons a t => simp [List.dropWhile, h a (by simp)]

theorem noDigit_of_sublist {s t : List Char} (hst : List.Sublist s t) (h : NoDigit t) :
    NoDigit s :=
  fun c hc => h c (hst.subset hc)

theorem parseFloat_of_noDigit {s : List Char} (h : NoDigit s) :
    parseFloat s = JsNumber.nan := by
  have hr : NoDigit (if (s.head? == some '-') = true then s.drop 1 else s) := by
    split
    · exact noDigit_of_sublist (List.drop_sublist 1 s) h
    · exact h
  have hfp : (match (if (s.head? == some '-') = true then s.drop 1 else s) with
      | '.' :: r2 => r2.takeWhile isDigit
      | _ => []) = [] := by
    split
    · rename_i r2 heq
      apply takeWhile_isDigit_of_noDigit
      intro c hc
      exact hr c (by rw [heq]; simp [hc])
    · rfl
  simp only [parseFloat, takeWhile_isDigit_of_noDigit hr, dropWhile_isDigit_of_noDigit hr, hfp]
  simp

theorem trim_sublist (s : List Char) : List.Sublist (trim s) s := by
  unfold trim
  have h1 : List.Sublist ((s.dropWhile isSpace).reverse.dropWhile isSpace)
      (s.dropWhile isSpace).reverse := List.dropWhile_sublist _
  have h2 := List.Sublist.reverse h1
  rw [List.reverse_reverse] at h2
  exact h2.trans (List.dropWhile_sublist _)

theorem noDigit_replaceFirst {s : List Char} (h : NoDigit s) :
    NoDigit (replaceFirst ',' '.' s) := by
  induction s with
  | nil => exact h
  | cons a t ih =>
    have ht : NoDigit t := fun c hc => h c (by simp [hc])
    unfold replaceFirst
    split
    · intro c hc
      rcases List.mem_cons.mp hc with rfl | hc
      · decide
      · exact ht c hc
    · intro c hc
      rcases List.mem_cons.mp hc with rfl | hc
      · exact h _ (by simp)
      · exact ih ht c hc

theorem parseCurrencyNumber_eq (s : List Char) :
    parseCurrencyNumber s
      = finiteOrNull (parseFloat (normalizeSeparators ((trim s).filter isKept))) := rfl

theorem parseCurrencyNumber_of_noDigit {s : List Char} (h : NoDigit s) :
    parseCurrencyNumber s = none := by
  have hk : NoDigit ((trim s).filter isKept) :=
    noDigit_of_sublist ((List.filter_sublist _).trans (trim_sublist s)) h
  have hrm : ∀ c, NoDigit (removeAll c ((trim s).filter isKept)) := fun c =>
    noDigit_of_sublist (List.filter_sublist _) hk
  have hnorm : NoDigit (normalizeSeparators ((trim s).filter isKept)) := by
    unfold normalizeSeparators
    split
    · split
      · exact noDigit_replaceFirst (hrm _)
      · exact hrm _
    · split
      · exact noDigit_replaceFirst (hrm _)
      · exact hrm _
  rw [parseCurrencyNumber_eq, parseFloat_of_noDigit hnorm]
  rfl

theorem isSpace_of_isDigit {c : Char} (h : isDigit c = true) : isSpace c = false := by
  simp only [isDigit, Bool.and_eq_true, decide_eq_true_eq] at h
  simp only [isSpace, List.mem_cons, List.mem_singleton, Bool.or_eq_false_iff,
    decide_eq_false_iff_not, Bool.and_eq_false_iff, List.not_mem_nil, or_false]
  constructor <;> omega

theorem isKept_of_isDigit {c : Char} (h : isDigit c = true) : isKept c = true := by
  simp [isKept, h]

theorem isNumberChar_of_isDigit {c : Char} (h : isDigit c = true) : isNumberChar c = true := by
  simp [isNumberChar, h]

theorem ne_of_isDigit {c d : Char} (h : isDigit c = true) (hd : isDigit d = false) : c ≠ d := by
  rintro rfl
  rw [h] at hd
  exact Bool.noConfusion hd

theorem mkRat_decimal (a b n : ℕ) :
    mkRat ((a * 10 ^ n + b : ℕ) : ℤ) (10 ^ n) = (a : ℚ) + (b : ℚ) / 10 ^ n := by
  rw [Rat.mkRat_eq_div]
  have h10 : ((10 : ℚ) ^ n) ≠ 0 := by positivity
  push_cast
  field_simp

theorem parseFloat_decimal {ip fp : List Char} (hi : AllDigits ip) (hf : AllDigits fp)
    (hne : ip ≠ [] ∨ fp ≠ []) :
    parseFloat (ip ++ '.' :: fp) = toDouble (decimalValue ip fp) := by
  have hhead : ((ip ++ '.' :: fp).head? == some '-') = false := by
    cases ip with
    | nil => simp
    | cons a t =>
      have : a ≠ '-' := ne_of_isDigit (hi a (by simp)) (by decide)
      simp [this]
  have htw : (ip ++ '.' :: fp).takeWhile isDigit = ip := by
    rw [List.takeWhile_append_of_pos hi]
    simp [List.takeWhile, show isDigit '.' = false from by decide]
  have hdw : (ip ++ '.' :: fp).dropWhile isDigit = '.' :: fp := by
    rw [List.dropWhile_append_of_pos hi]
    simp [List.dropWhile, show isDigit '.' = false from by decide]
  have hfw : fp.takeWhile isDigit = fp := by
    have := @List.takeWhile_append_of_pos Char isDigit fp [] hf
    simpa using this
  simp only [parseFloat, hhead, htw, hdw, hfw, Bool.false_eq_true, if_false]
  have hemp : (ip.isEmpty && fp.isEmpty) = false := by
    rcases hne with h | h
    · cases ip with
      | nil => exact absurd rfl h
      | cons a t => rfl
    · cases fp with
      | nil => exact absurd rfl h
      | cons a t => simp
  simp only [hemp, Bool.false_eq_true, if_false, mkRat_decimal, decimalValue]

theorem parseFloat_integer {ip : List Char} (hi : AllDigits ip) (hne : ip ≠ []) :
    parseFloat ip = toDouble (decimalValue ip []) := by
  have hhead : (ip.head? == some '-') = false := by
    cases ip with
    | nil => decide
    | cons a t =>
      have : a ≠ '-' := ne_of_isDigit (hi a (by simp)) (by decide)
      simp [this]
  have htw : ip.takeWhile isDigit = ip := by
    have := @List.takeWhile_append_of_pos Char isDigit ip [] hi
    simpa using this
  have hdw : ip.dropWhile isDigit = [] := by
    have := @List.dropWhile_append_of_pos Char isDigit ip [] hi
    simpa using this
  simp only [parseFloat, hhead, htw, hdw, Bool.false_eq_true, if_false]
  have hemp : ip.isEmpty = false := by
    cases ip with
    | nil => exact absurd rfl hne
    | cons a t => rfl
  simp [hemp, decimalValue, Rat.mkRat_eq_div]

theorem dropWhile_eq_self_of_forall_false {p : Char → Bool} {s : List Char}
    (h : ∀ c ∈ s, p c = false) : s.dropWhile p = s := by
  cases s with
  | nil => rfl
  | cons a t => simp [List.dropWhile, h a (by simp)]

theorem trim_eq_self {s : List Char} (h : ∀ c ∈ s, isSpace c = false) : trim s = s := by
  unfold trim
  rw [dropWhile_eq_self_of_forall_false h,
    dropWhile_eq_self_of_forall_false (fun c hc => h c (List.mem_reverse.mp hc)),
    List.reverse_reverse]

theorem lastIndexOf_of_not_mem {c : Char} {s : List Char} (h : c ∉ s) : lastIndexOf c s = -1 := by
  induction s with
  | nil => rfl
  | cons x t ih =>
    have hx : x ≠ c := fun e => h (by simp [e])
    have ht : c ∉ t := fun e => h (by simp [e])
    simp [lastIndexOf, ih ht, hx]

theorem lastIndexOf_lt_length (c : Char) (s : List Char) : lastIndexOf c s < (s.length : ℤ) := by
  induction s with
  | nil => simp [lastIndexOf]
  | cons x t ih =>
    simp only [lastIndexOf, List.length_cons, Nat.cast_add, Nat.cast_one]
    split
    · omega
    · split <;> omega

theorem lastIndexOf_append_of_not_mem {c : Char} (a : List Char) {b : List Char} (h : c ∉ b) :
    lastIndexOf c (a ++ b) = lastIndexOf c a := by
  induction a with
  | nil => simp [lastIndexOf, lastIndexOf_of_not_mem h]
  | cons x t ih => simp [lastIndexOf, ih]

theorem lastIndexOf_append_cons_self {c : Char} (a : List Char) {b : List Char} (h : c ∉ b) :
    lastIndexOf c (a ++ c :: b) = (a.length : ℤ) := by
  induction a with
  | nil => simp [lastIndexOf, lastIndexOf_of_not_mem h]
  | cons x t ih =>
    have h0 : (0 : ℤ) ≤ (t.length : ℤ) := Int.ofNat_nonneg _
    rw [List.cons_append, lastIndexOf]
    simp only [ih, h0, if_true, List.length_cons, Nat.cast_add, Nat.cast_one]

theorem replaceFirst_append_cons_self {c d : Char} {a : List Char} (b : List Char) (h : c ∉ a) :
    replaceFirst c d (a ++ c :: b) = a ++ d :: b := by
  induction a with
  | nil => simp [replaceFirst]
  | cons x t ih =>
    have hx : x ≠ c := fun e => h (by simp [e])
    have ht : c ∉ t := fun e => h (by simp [e])
    simp [replaceFirst, hx, ih ht]

theorem removeAll_eq_self {c : Char} {s : List Char} (h : c ∉ s) : removeAll c s = s := by
  unfold removeAll
  rw [List.filter_eq_self]
  intro a ha
  have : a ≠ c := fun e => h (e ▸ ha)
  simp [this]

theorem removeAll_append (c : Char) (a b : List Char) :
    removeAll c (a ++ b) = removeAll c a ++ removeAll c b := by
  simp [removeAll]

theorem not_mem_of_allDigits {c : Char} {s : List Char} (hs : AllDigits s)
    (hc : isDigit c = false) : c ∉ s :=
  fun h => by
    have := hs c h
    rw [hc] at this
    exact Bool.noConfusion this


theorem isSpace_of_isNumberChar {c : Char} (h : isNumberChar c = true) : isSpace c = false := by
  simp only [isNumberChar, Bool.or_eq_true, beq_iff_eq] at h
  rcases h with (h | rfl) | rfl
  · exact isSpace_of_isDigit h
  · decide
  · decide

theorem isKept_of_isNumberChar {c : Char} (h : isNumberChar c = true) : isKept c = true := by
  simp only [isNumberChar, Bool.or_eq_true] at h
  simp only [isKept, Bool.or_eq_true]
  exact Or.inl h

theorem parseCurrencyNumber_of_allNumberChars {s : List Char} (h : AllNumberChars s) :
    parseCurrencyNumber s = finiteOrNull (parseFloat (normalizeSeparators s)) := by
  rw [parseCurrencyNumber_eq, trim_eq_self (fun c hc => isSpace_of_isNumberChar (h c hc)),
    List.filter_eq_self.mpr (fun c hc => isKept_of_isNumberChar (h c hc))]

theorem allDigits_flatten {groups : List (List Char)} (h : ∀ g ∈ groups, AllDigits g) :
    AllDigits groups.flatten := by
  intro c hc
  rcases List.mem_flatten.mp hc with ⟨g, hg, hcg⟩
  exact h g hg c hcg

theorem removeAll_groupsJoined {sep : Char} (hsep : isDigit sep = false)
    {groups : List (List Char)} (h : ∀ g ∈ groups, AllDigits g) :
    removeAll sep (groupsJoined sep groups) = groups.flatten := by
  induction groups with
  | nil => rfl
  | cons g rest ih =>
    have hg : AllDigits g := h g (by simp)
    have hrest : ∀ g ∈ rest, AllDigits g := fun x hx => h x (by simp [hx])
    cases rest with
    | nil => simpa [groupsJoined] using removeAll_eq_self (not_mem_of_allDigits hg hsep)
    | cons g2 gs =>
      have ih2 := ih hrest
      rw [groupsJoined, removeAll_append, removeAll_eq_self (not_mem_of_allDigits hg hsep)]
      have : removeAll sep (sep :: groupsJoined sep (g2 :: gs))
          = removeAll sep (groupsJoined sep (g2 :: gs)) := by
        simp [removeAll]
      rw [this, ih2]
      simp

theorem not_mem_groupsJoined {sep c : Char} (hc : isDigit c = false) (hne : c ≠ sep)
    {groups : List (List Char)} (h : ∀ g ∈ groups, AllDigits g) :
    c ∉ groupsJoined sep groups := by
  induction groups with
  | nil => simp [groupsJoined]
  | cons g rest ih =>
    have hg : AllDigits g := h g (by simp)
    have hrest : ∀ g ∈ rest, AllDigits g := fun x hx => h x (by simp [hx])
    cases rest with
    | nil => simpa [groupsJoined] using not_mem_of_allDigits hg hc
    | cons g2 gs =>
      rw [groupsJoined]
      intro hmem
      rcases List.mem_append.mp hmem with h1 | h1
      · exact not_mem_of_allDigits hg hc h1
      · rcases List.mem_cons.mp h1 with h2 | h2
        · exact hne h2
        · exact ih hrest h2

theorem allNumberChars_rendering {sep dec : Char} (hsep : isNumberChar sep = true)
    (hdec : isNumberChar dec = true) {groups : List (List Char)} {f : List Char}
    (h : ∀ g ∈ groups, AllDigits g) (hf : AllDigits f) :
    AllNumberChars (groupsJoined sep groups ++ dec :: f) := by
  have hJ : AllNumberChars (groupsJoined sep groups) := by
    induction groups with
    | nil => intro c hc; simp [groupsJoined] at hc
    | cons g rest ih =>
      have hg : AllDigits g := h g (by simp)
      have hrest : ∀ g ∈ rest, AllDigits g := fun x hx => h x (by simp [hx])
      cases rest with
      | nil => intro c hc; exact isNumberChar_of_isDigit (hg c (by simpa [groupsJoined] using hc))
      | cons g2 gs =>
        rw [groupsJoined]
        intro c hc
        rcases List.mem_append.mp hc with h1 | h1
        · exact isNumberChar_of_isDigit (hg c h1)
        · rcases List.mem_cons.mp h1 with h2 | h2
          · rw [h2]; exact hsep
          · exact ih hrest c h2
  intro c hc
  rcases List.mem_append.mp hc with h1 | h1
  · exact hJ c h1
  · rcases List.mem_cons.mp h1 with h2 | h2
    · rw [h2]; exact hdec
    · exact isNumberChar_of_isDigit (hf c h2)

/-- Period grouping with a comma decimal normalizes to the digits with a period decimal. -/
theorem normalizeSeparators_commaDecimal {groups : List (List Char)} {f : List Char}
    (h : ∀ g ∈ groups, AllDigits g) (hf : AllDigits f) :
    normalizeSeparators (groupsJoined '.' groups ++ ',' :: f) = groups.flatten ++ '.' :: f := by
  have hcf : ',' ∉ f := not_mem_of_allDigits hf (by decide)
  have hdf : '.' ∉ ',' :: f := by
    intro hm
    rcases List.mem_cons.mp hm with h1 | h1
    · exact absurd h1 (by decide)
    · exact not_mem_of_allDigits hf (by decide) h1
  have hlt : lastIndexOf '.' (groupsJoined '.' groups ++ ',' :: f)
      < lastIndexOf ',' (groupsJoined '.' groups ++ ',' :: f) := by
    rw [lastIndexOf_append_of_not_mem _ hdf, lastIndexOf_append_cons_self _ hcf]
    exact lastIndexOf_lt_length _ _
  have hres : replaceFirst ',' '.' (removeAll '.' (groupsJoined '.' groups ++ ',' :: f))
      = groups.flatten ++ '.' :: f := by
    rw [removeAll_append, removeAll_groupsJoined (by decide) h, removeAll_eq_self hdf]
    exact replaceFirst_append_cons_self _ (not_mem_of_allDigits (allDigits_flatten h) (by decide))
  have hc : (groupsJoined '.' groups ++ ',' :: f).contains ',' = true := by simp
  unfold normalizeSeparators
  rw [hc]
  by_cases hd : (groupsJoined '.' groups ++ ',' :: f).contains '.' = true
  · rw [hd]
    simp only [Bool.and_self, if_true, hlt, hres]
  · rw [Bool.not_eq_true] at hd
    rw [hd]
    simp only [Bool.and_false, Bool.false_eq_true, if_false, if_true, hres]

/-- Comma grouping with a period decimal normalizes to the digits with a period decimal. -/
theorem normalizeSeparators_periodDecimal {groups : List (List Char)} {f : List Char}
    (h : ∀ g ∈ groups, AllDigits g) (hf : AllDigits f) :
    normalizeSeparators (groupsJoined ',' groups ++ '.' :: f) = groups.flatten ++ '.' :: f := by
  have hdf : '.' ∉ f := not_mem_of_allDigits hf (by decide)
  have hcf : ',' ∉ '.' :: f := by
    intro hm
    rcases List.mem_cons.mp hm with h1 | h1
    · exact absurd h1 (by decide)
    · exact not_mem_of_allDigits hf (by decide) h1
  have hnlt : ¬ lastIndexOf '.' (groupsJoined ',' groups ++ '.' :: f)
      < lastIndexOf ',' (groupsJoined ',' groups ++ '.' :: f) := by
    rw [lastIndexOf_append_of_not_mem _ hcf, lastIndexOf_append_cons_self _ hdf]
    exact not_lt.mpr (le_of_lt (lastIndexOf_lt_length _ _))
  have hres : removeAll ',' (groupsJoined ',' groups ++ '.' :: f) = groups.flatten ++ '.' :: f := by
    rw [removeAll_append, removeAll_groupsJoined (by decide) h, removeAll_eq_self hcf]
  have hd : (groupsJoined ',' groups ++ '.' :: f).contains '.' = true := by simp
  unfold normalizeSeparators
  rw [hd, if_neg hnlt, hres]
  by_cases hc : (groupsJoined ',' groups ++ '.' :: f).contains ',' = true
  · rw [hc]
    simp only [Bool.and_self, if_true]
  · rw [Bool.not_eq_true] at hc
    rw [hc]
    simp only [Bool.false_and, Bool.false_eq_true, if_false]


/-! ## Rounding to a double -/

/-- The result of `roundHalfEven` is an integer nearest to `n / d`. -/
theorem roundHalfEven_nearest (n d : ℕ) (hd : 0 < d) :
    2 * (roundHalfEven n d * d) ≤ 2 * n + d ∧ 2 * n ≤ 2 * (roundHalfEven n d * d) + d := by
  have hdm : d * (n / d) + n % d = n := Nat.div_add_mod n d
  have hlt : n % d < d := Nat.mod_lt n hd
  have e1 : n / d * d = d * (n / d) := Nat.mul_comm _ _
  have e2 : (n / d + 1) * d = d * (n / d) + d := by rw [Nat.add_mul, e1, Nat.one_mul]
  unfold roundHalfEven
  simp only
  split
  · rw [e1]; omega
  · split
    · rw [e2]; omega
    · split
      · rw [e1]; omega
      · rw [e2]; omega

/-- At a tie `roundHalfEven` returns the even neighbour. -/
theorem roundHalfEven_tie (n d : ℕ) (htie : 2 * (n % d) = d) : roundHalfEven n d % 2 = 0 := by
  unfold roundHalfEven
  simp only
  rw [if_neg (by omega), if_neg (by omega)]
  split
  · assumption
  · omega

/-- The bisection returns the binary exponent: the `k` with `2 ^ k ≤ a / d < 2 ^ (k + 1)`. -/
theorem searchExponent_spec (a d : ℕ) (fuel lo hi : ℕ) (hlo : d * 2 ^ lo ≤ a)
    (hhi : a < d * 2 ^ hi) (hsize : hi ≤ lo + 2 ^ fuel) :
    lo ≤ searchExponent a d fuel lo hi ∧ searchExponent a d fuel lo hi < hi
    ∧ d * 2 ^ searchExponent a d fuel lo hi ≤ a
    ∧ a < d * 2 ^ (searchExponent a d fuel lo hi + 1) := by
  have hlt : lo < hi := by
    by_contra hge
    have h1 : 2 ^ hi ≤ 2 ^ lo := Nat.pow_le_pow_right (by norm_num) (not_lt.mp hge)
    have h2 : d * 2 ^ hi ≤ d * 2 ^ lo := Nat.mul_le_mul_left d h1
    omega
  induction fuel generalizing lo hi with
  | zero =>
    have hhi1 : hi = lo + 1 := by
      simp only [pow_zero] at hsize
      omega
    subst hhi1
    exact ⟨le_refl _, Nat.lt_succ_self _, hlo, hhi⟩
  | succ fuel ih =>
    have hp : 2 ^ (fuel + 1) = 2 * 2 ^ fuel := by rw [pow_succ, Nat.mul_comm]
    have hpos : 0 < 2 ^ fuel := pow_pos (by norm_num) _
    unfold searchExponent
    simp only
    split
    · rename_i hmid
      have hmlt : (lo + hi) / 2 < hi := by omega
      obtain ⟨h1, h2, h3, h4⟩ := ih ((lo + hi) / 2) hi hmid hhi (by omega) hmlt
      exact ⟨by omega, h2, h3, h4⟩
    · rename_i hmid
      have hmid2 : a < d * 2 ^ ((lo + hi) / 2) := not_le.mp hmid
      have hlm : lo < (lo + hi) / 2 := by
        by_contra hge
        have e : (lo + hi) / 2 = lo := by omega
        rw [e] at hmid2
        omega
      obtain ⟨h1, h2, h3, h4⟩ := ih lo ((lo + hi) / 2) hlo hmid2 (by omega) hlm
      exact ⟨h1, by omega, h3, h4⟩

/-- What `roundMagnitude` returns.  In units of `2 ^ (-1074)` the value is `a / d` with
`a = n * 2 ^ 1074`; there is an exponent `k` from 52 to 2097 with `a / d < 2 ^ (k + 1)` and,
unless `k = 52`, `2 ^ k ≤ a / d`; the result `m` is a multiple of the spacing `2 ^ (k - 52)`
at distance at most half the spacing from `a / d`, and it is below `2 ^ 2098`. -/
theorem roundMagnitude_nearest (n d m : ℕ) (hd : 0 < d) (h : roundMagnitude n d = some m) :
    ∃ k : ℕ, 52 ≤ k ∧ k < 2098 ∧ (52 < k → d * 2 ^ k ≤ n * 2 ^ 1074)
      ∧ n * 2 ^ 1074 < d * 2 ^ (k + 1)
      ∧ (∃ j : ℕ, m = j * 2 ^ (k - 52))
      ∧ 2 * (m * d) ≤ 2 * (n * 2 ^ 1074) + d * 2 ^ (k - 52)
      ∧ 2 * (n * 2 ^ 1074) ≤ 2 * (m * d) + d * 2 ^ (k - 52)
      ∧ m < 2 ^ 2098 := by
  have hdef : ∀ K : ℕ,
      K = (if n * 2 ^ 1074 < d * 2 ^ 52 then 52 else searchExponent (n * 2 ^ 1074) d 11 52 2098) →
      roundMagnitude n d = (if d * 2 ^ 2098 ≤ n * 2 ^ 1074 then none
        else if 2 ^ 2098 ≤ roundHalfEven (n * 2 ^ 1074) (d * 2 ^ (K - 52)) * 2 ^ (K - 52)
          then none
        else some (roundHalfEven (n * 2 ^ 1074) (d * 2 ^ (K - 52)) * 2 ^ (K - 52))) := by
    intro K hK
    subst hK
    rfl
  have key : ∀ k : ℕ, 52 ≤ k → k < 2098 → (52 < k → d * 2 ^ k ≤ n * 2 ^ 1074) →
      n * 2 ^ 1074 < d * 2 ^ (k + 1) →
      roundMagnitude n d = (if d * 2 ^ 2098 ≤ n * 2 ^ 1074 then none
        else if 2 ^ 2098 ≤ roundHalfEven (n * 2 ^ 1074) (d * 2 ^ (k - 52)) * 2 ^ (k - 52)
          then none
        else some (roundHalfEven (n * 2 ^ 1074) (d * 2 ^ (k - 52)) * 2 ^ (k - 52))) →
      ∃ k : ℕ, 52 ≤ k ∧ k < 2098 ∧ (52 < k → d * 2 ^ k ≤ n * 2 ^ 1074)
        ∧ n * 2 ^ 1074 < d * 2 ^ (k + 1)
        ∧ (∃ j : ℕ, m = j * 2 ^ (k - 52))
        ∧ 2 * (m * d) ≤ 2 * (n * 2 ^ 1074) + d * 2 ^ (k - 52)
        ∧ 2 * (n * 2 ^ 1074) ≤ 2 * (m * d) + d * 2 ^ (k - 52)
        ∧ m < 2 ^ 2098 := by
    intro k hk1 hk2 hk3 hk4 hr
    rw [hr] at h
    by_cases hov : d * 2 ^ 2098 ≤ n * 2 ^ 1074
    · rw [if_pos hov] at h
      exact Option.noConfusion h
    · rw [if_neg hov] at h
      by_cases hm : 2 ^ 2098 ≤ roundHalfEven (n * 2 ^ 1074) (d * 2 ^ (k - 52)) * 2 ^ (k - 52)
      · rw [if_pos hm] at h
        exact Option.noConfusion h
      · rw [if_neg hm] at h
        have hmk := Option.some.inj h
        have hsp : 0 < d * 2 ^ (k - 52) := Nat.mul_pos hd (pow_pos (by norm_num) _)
        obtain ⟨hn1, hn2⟩ := roundHalfEven_nearest (n * 2 ^ 1074) (d * 2 ^ (k - 52)) hsp
        have e : roundHalfEven (n * 2 ^ 1074) (d * 2 ^ (k - 52)) * (d * 2 ^ (k - 52))
            = m * d := by
          rw [← hmk]
          ring
        rw [e] at hn1 hn2
        refine ⟨k, hk1, hk2, hk3, hk4, ⟨_, hmk.symm⟩, hn1, hn2, ?_⟩
        rw [← hmk]
        exact not_le.mp hm
  by_cases hov : d * 2 ^ 2098 ≤ n * 2 ^ 1074
  · rw [hdef _ rfl, if_pos hov] at h
    exact Option.noConfusion h
  · by_cases hsub : n * 2 ^ 1074 < d * 2 ^ 52
    · refine key 52 (le_refl _) (by norm_num) (fun hk => absurd hk (lt_irrefl _)) ?_
        (hdef 52 (by rw [if_pos hsub]))
      have h52 : d * 2 ^ 52 ≤ d * 2 ^ (52 + 1) :=
        Nat.mul_le_mul_left d (Nat.pow_le_pow_right (by norm_num) (by norm_num))
      exact lt_of_lt_of_le hsub h52
    · obtain ⟨h1, h2, h3, h4⟩ := searchExponent_spec (n * 2 ^ 1074) d 11 52 2098
        (not_lt.mp hsub) (not_le.mp hov) (by norm_num)
      exact key _ h1 h2 (fun _ => h3) h4 (hdef _ (by rw [if_neg hsub]))

theorem abs_eq_natAbs_div (q : ℚ) : |q| = (q.num.natAbs : ℚ) / (q.den : ℚ) := by
  have hden : (0 : ℚ) < (q.den : ℚ) := by exact_mod_cast q.den_pos
  conv_lhs => rw [← Rat.num_div_den q]
  rw [abs_div, abs_of_pos hden, Nat.cast_natAbs, Int.cast_abs]

/-- A finite result of `toDouble` is a nearest double.  With `s = 2 ^ (k - 52) / 2 ^ 1074` the
spacing of the doubles in the binade of `q` (`k = 52` being the range of the subnormal
numbers and the first normal binade), the result is a whole multiple of `s` at distance at
most `s / 2` from `q`. -/
theorem toDouble_nearest (q v : ℚ) (h : toDouble q = JsNumber.finite v) :
    ∃ k j : ℕ, 52 ≤ k ∧ k < 2098
      ∧ |v| = (j : ℚ) * ((2 : ℚ) ^ (k - 52) / 2 ^ 1074)
      ∧ |v - q| ≤ (2 : ℚ) ^ (k - 52) / 2 ^ 1074 / 2
      ∧ |q| < (2 : ℚ) ^ (k + 1) / 2 ^ 1074
      ∧ (52 < k → (2 : ℚ) ^ k / 2 ^ 1074 ≤ |q|) := by
  have hden : (0 : ℚ) < (q.den : ℚ) := by exact_mod_cast q.den_pos
  have habs := abs_eq_natAbs_div q
  obtain ⟨P, hPdef⟩ : ∃ P : ℕ, P = 2 ^ 1074 := ⟨_, rfl⟩
  have hPq : (2 : ℚ) ^ 1074 = (P : ℚ) := by rw [hPdef, Nat.cast_pow, Nat.cast_ofNat]
  have hP : (0 : ℚ) < (P : ℚ) := by
    rw [← hPq]
    exact pow_pos two_pos _
  rw [hPq]
  unfold toDouble at h
  rw [← hPdef] at h
  cases hr : roundMagnitude q.num.natAbs q.den with
  | none =>
    rw [hr] at h
    simp only at h
    split at h <;> exact JsNumber.noConfusion h
  | some m =>
    rw [hr] at h
    simp only at h
    obtain ⟨k, hk1, hk2, hk3, hk4, ⟨j, hj⟩, hn1, hn2, -⟩ :=
      roundMagnitude_nearest _ _ m q.den_pos hr
    rw [← hPdef] at hk3 hk4 hn1 hn2
    have hn1q : 2 * ((m : ℚ) * q.den) ≤ 2 * ((q.num.natAbs : ℚ) * P)
        + (q.den : ℚ) * 2 ^ (k - 52) := by exact_mod_cast hn1
    have hn2q : 2 * ((q.num.natAbs : ℚ) * P) ≤ 2 * ((m : ℚ) * q.den)
        + (q.den : ℚ) * 2 ^ (k - 52) := by exact_mod_cast hn2
    have hk4q : (q.num.natAbs : ℚ) * P < (q.den : ℚ) * 2 ^ (k + 1) := by
      exact_mod_cast hk4
    have hdist : abs ((m : ℚ) / P - abs q) ≤ (2 : ℚ) ^ (k - 52) / P / 2 := by
      rw [habs, abs_le]
      constructor
      · rw [neg_le, neg_sub, sub_le_iff_le_add, div_le_iff₀ hden]
        have e : ((2 : ℚ) ^ (k - 52) / P / 2 + (m : ℚ) / P) * q.den
            = (2 * ((m : ℚ) * q.den) + (q.den : ℚ) * 2 ^ (k - 52)) / (2 * P) := by
          field_simp
          ring
        rw [e, le_div_iff₀ (mul_pos two_pos hP)]
        linarith
      · rw [sub_le_iff_le_add, div_le_iff₀ hP]
        have e : ((2 : ℚ) ^ (k - 52) / P / 2 + (q.num.natAbs : ℚ) / q.den) * P
            = (2 * ((q.num.natAbs : ℚ) * P) + (q.den : ℚ) * 2 ^ (k - 52)) / (2 * q.den) := by
          field_simp
          ring
        rw [e, le_div_iff₀ (mul_pos two_pos hden)]
        linarith
    have hupper : |q| < (2 : ℚ) ^ (k + 1) / P := by
      rw [habs, div_lt_iff₀ hden, div_mul_eq_mul_div, lt_div_iff₀ hP]
      linarith
    have hlower : 52 < k → (2 : ℚ) ^ k / P ≤ |q| := by
      intro hk
      have hq : (q.den : ℚ) * 2 ^ k ≤ (q.num.natAbs : ℚ) * P := by exact_mod_cast hk3 hk
      rw [habs, div_le_iff₀ hP, div_mul_eq_mul_div, le_div_iff₀ hden]
      linarith
    have hmj : (m : ℚ) / P = (j : ℚ) * ((2 : ℚ) ^ (k - 52) / P) := by
      rw [hj]
      push_cast
      ring
    have hm0 : (0 : ℚ) ≤ (m : ℚ) / P := div_nonneg (Nat.cast_nonneg m) hP.le
    by_cases hmz : m = 0
    · rw [if_pos hmz] at h
      split at h
      · exact JsNumber.noConfusion h
      · have hv : v = 0 := (JsNumber.finite.inj h).symm
        subst hmz
        refine ⟨k, 0, hk1, hk2, by rw [hv]; simp, ?_, hupper, hlower⟩
        rw [hv, zero_sub, abs_neg]
        simpa using hdist
    · rw [if_neg hmz] at h
      have hv := (JsNumber.finite.inj h).symm
      by_cases hneg : q.num < 0
      · rw [if_pos hneg, Rat.mkRat_eq_div] at hv
        have hvq : v = -((m : ℚ) / P) := by
          rw [hv]
          push_cast
          ring
        have hq0 : q < 0 := Rat.num_neg.mp hneg
        refine ⟨k, j, hk1, hk2, ?_, ?_, hupper, hlower⟩
        · rw [hvq, abs_neg, abs_of_nonneg hm0, hmj]
        · rw [abs_of_neg hq0] at hdist
          have e : v - q = -((m : ℚ) / P - -q) := by rw [hvq]; ring
          rw [e, abs_neg]
          exact hdist
      · rw [if_neg hneg, Rat.mkRat_eq_div] at hv
        have hvq : v = (m : ℚ) / P := by
          rw [hv]
          push_cast
          ring
        have hq0 : 0 ≤ q := Rat.num_nonneg.mp (not_lt.mp hneg)
        refine ⟨k, j, hk1, hk2, ?_, ?_, hupper, hlower⟩
        · rw [hvq, abs_of_nonneg hm0, hmj]
        · rw [abs_of_nonneg hq0] at hdist
          rw [hvq]
          exact hdist

/-! ## The number normalizer -/

/-- C6: `parseCurrencyNumber` is a total function that signals unparseable input by absence:
an input without any decimal digit gives `none`, and every input gives `none` or a number
that passes `Number.isFinite`, never an infinity or `NaN`. -/
theorem parseCurrencyNumber_absent_or_number :
    (∀ s : List Char, NoDigit s → parseCurrencyNumber s = none)
    ∧ (∀ s : List Char, parseCurrencyNumber s = none
        ∨ ∃ n : JsNumber, parseCurrencyNumber s = some n ∧ isFinite n = true) := by
  refine ⟨fun s h => parseCurrencyNumber_of_noDigit h, fun s => ?_⟩
  rw [parseCurrencyNumber_eq]
  unfold finiteOrNull
  split
  · rename_i hfin
    exact Or.inr ⟨_, rfl, hfin⟩
  · exact Or.inl rfl

/-- Instances of C6 on the two inputs named by the specification, `"abc"` and `""`; a run of
400 nines, which `parseFloat` turns into `Infinity`, is absent as well. -/
theorem parseCurrencyNumber_absent_or_number_witness :
    (NoDigit "abc".data ∧ parseCurrencyNumber "abc".data = none)
    ∧ (NoDigit "".data ∧ parseCurrencyNumber "".data = none)
    ∧ parseFloat (repeated 400 '9').data = JsNumber.posInf
    ∧ parseCurrencyNumber (repeated 400 '9').data = none :=
  ⟨⟨by decide, parseCurrencyNumber_absent_or_number.1 "abc".data (by decide)⟩,
   ⟨by decide, parseCurrencyNumber_absent_or_number.1 "".data (by decide)⟩,
   by decide!, by decide!⟩

/-- C2, as the code has it: for digit groups `g1..gk` and fraction digits `f`, the renderings
`g1.g2...gk,f`, `g1,g2...gk.f` and `g1g2...gk,f` all normalize to the same result, the double
nearest to the decimal value `g1g2...gk.f` when that double is finite and absent when it is
not. -/
theorem parseCurrencyNumber_locale_independent (groups : List (List Char)) (f : List Char)
    (hg : ∀ g ∈ groups, AllDigits g) (hf : f ≠ [] ∧ AllDigits f) :
    parseCurrencyNumber (groupsJoined '.' groups ++ ',' :: f)
        = finiteOrNull (toDouble (decimalValue groups.flatten f))
    ∧ parseCurrencyNumber (groupsJoined ',' groups ++ '.' :: f)
        = finiteOrNull (toDouble (decimalValue groups.flatten f))
    ∧ parseCurrencyNumber (groups.flatten ++ ',' :: f)
        = finiteOrNull (toDouble (decimalValue groups.flatten f)) := by
  have hD : AllDigits groups.flatten := allDigits_flatten hg
  have hval : parseFloat (groups.flatten ++ '.' :: f) = toDouble (decimalValue groups.flatten f) :=
    parseFloat_decimal hD hf.2 (Or.inr hf.1)
  refine ⟨?_, ?_, ?_⟩
  · rw [parseCurrencyNumber_of_allNumberChars
        (allNumberChars_rendering (by decide) (by decide) hg hf.2),
      normalizeSeparators_commaDecimal hg hf.2, hval]
  · rw [parseCurrencyNumber_of_allNumberChars
        (allNumberChars_rendering (by decide) (by decide) hg hf.2),
      normalizeSeparators_periodDecimal hg hf.2, hval]
  · have h1 : ∀ g ∈ [groups.flatten], AllDigits g := by
      intro g hmem
      rw [List.mem_singleton.mp hmem]
      exact hD
    have h2 := normalizeSeparators_commaDecimal h1 hf.2
    have h3 := @allNumberChars_rendering '.' ',' (by decide) (by decide) _ _ h1 hf.2
    simp only [groupsJoined, List.flatten_cons, List.flatten_nil, List.append_nil] at h2 h3
    rw [parseCurrencyNumber_of_allNumberChars h3, h2, hval]

/-- Instance of C2 named by the specification: `"1.234,56"`, `"1,234.56"` and `"1234,56"`
all normalize to the number 1234.56. -/
theorem parseCurrencyNumber_locale_independent_witness :
    parseCurrencyNumber "1.234,56".data = some (toDouble 1234.56)
    ∧ parseCurrencyNumber "1,234.56".data = some (toDouble 1234.56)
    ∧ parseCurrencyNumber "1234,56".data = some (toDouble 1234.56) := by
  have h := parseCurrencyNumber_locale_independent ["1".data, "234".data] "56".data
    (by decide) (by decide)
  have hv : decimalValue ["1".data, "234".data].flatten "56".data = 1234.56 := by
    have h1 : digitsToNat ["1".data, "234".data].flatten = 1234 := by decide
    have h2 : digitsToNat "56".data = 56 := by decide
    have h3 : "56".data.length = 2 := by decide
    rw [decimalValue, h1, h2, h3]
    norm_num
  have hfin : finiteOrNull (toDouble 1234.56) = some (toDouble 1234.56) := by decide!
  rw [hv, hfin] at h
  exact h

/-- C2 fails as stated: for the 134 groups `999` and the fraction digit `5`, a value of 402
digits, each of the three renderings normalizes to absent, not to a number. -/
theorem parseCurrencyNumber_overflow_absent :
    parseCurrencyNumber (groupsJoined '.' (List.replicate 134 "999".data) ++ ',' :: "5".data)
        = none
    ∧ parseCurrencyNumber (groupsJoined ',' (List.replicate 134 "999".data) ++ '.' :: "5".data)
        = none
    ∧ parseCurrencyNumber ((List.replicate 134 "999".data).flatten ++ ',' :: "5".data) = none := by
  refine ⟨by decide!, by decide!, by decide!⟩



/-! ## Absent markup -/

/-- C5: absent markup gives the pair with both sides absent, and a source whose fetch
failed gets a quote with both prices absent and the URL as its source. -/
theorem extractFromHtml_absent (toLowerCase : List Char → List Char) :
    (∀ code : String, extractFromHtml toLowerCase none code = ⟨none, none⟩)
    ∧ (∀ (fetchPage : String → Option Dom) (url region : String), fetchPage url = none →
        fetchQuoteFromSource toLowerCase fetchPage url region
          = { buy_price := none, sell_price := none, source := url }) := by
  refine ⟨fun code => rfl, fun fetchPage url region h => ?_⟩
  simp [fetchQuoteFromSource, h, extractFromHtml]

/-- Instance of C5: every fetch fails and the source is `https://dolarhoy.com`. -/
theorem extractFromHtml_absent_witness :
    fetchQuoteFromSource asciiLower (fun _ => none) "https://dolarhoy.com" "ar"
      = { buy_price := none, sell_price := none, source := "https://dolarhoy.com" } :=
  (extractFromHtml_absent asciiLower).2 (fun _ => none) "https://dolarhoy.com" "ar" rfl



/-! ## Statistics -/

theorem nearest_millionth {y : ℚ} {k : ℤ} (h1 : (k : ℚ) ≤ y * 10 ^ 6 + 1 / 2)
    (h2 : y * 10 ^ 6 + 1 / 2 < (k : ℚ) + 1) : |(k : ℚ) / 10 ^ 6 - y| ≤ 1 / (2 * 10 ^ 6) := by
  rw [abs_le]
  norm_num at h1 h2 ⊢
  constructor <;> linarith

/-- Below `1e21` in magnitude, `Number(x.toFixed(6))` is `x` rounded to 6 decimal digits. -/
theorem toFixed6_isRounded6 (x : ℚ) (hx : |x| < 10 ^ 21) :
    IsRounded6 x (toFixed6 (JsNumber.finite x)) := by
  have hfl := nearest_millionth (Int.floor_le (|x| * 10 ^ 6 + 1 / 2))
    (Int.lt_floor_add_one (|x| * 10 ^ 6 + 1 / 2))
  simp only [toFixed6, if_neg (not_le.mpr hx)]
  generalize ⌊|x| * 10 ^ 6 + 1 / 2⌋ = n at hfl ⊢
  by_cases hneg : x < 0
  · rw [if_pos hneg]
    rw [abs_of_neg hneg] at hfl
    by_cases hn : n = 0
    · rw [if_pos hn]
      subst hn
      refine ⟨0, ?_, Or.inr ⟨rfl, hneg, rfl⟩⟩
      rw [abs_le] at hfl ⊢
      norm_num at hfl ⊢
      constructor <;> linarith
    · rw [if_neg hn]
      refine ⟨-n, ?_, Or.inl ?_⟩
      · have e : ((-n : ℤ) : ℚ) / 10 ^ 6 - x = -((n : ℚ) / 10 ^ 6 - -x) := by
          push_cast
          ring
        rw [e, abs_neg]
        exact hfl
      · congr 1
        push_cast
        ring
  · rw [if_neg hneg]
    rw [abs_of_nonneg (not_lt.mp hneg)] at hfl
    exact ⟨n, hfl, Or.inl rfl⟩

theorem averageOf_eq (prices : List (Option JsNumber)) :
    averageOf prices = if finitePrices prices = [] then none
      else some (toFixed6 (doubleMean (finitePrices prices))) := by
  unfold averageOf doubleMean
  by_cases h : finitePrices prices = []
  · simp [h]
  · have hl : (finitePrices prices).length ≠ 0 := fun e => h (List.length_eq_zero.mp e)
    simp [h]

/-- C7, as the code has it: on each side `computeAverage` returns absent when no quote has
a finite price and otherwise the mean of the finite prices as double arithmetic gives it
(sum from 0 in order, then the quotient by the count, each operation rounded), passed
through `toFixed(6)`, which below `1e21` is rounding to 6 decimal digits; buy prices 850,
860, absent give 855 and all-absent buy prices give absent. -/
theorem computeAverage_double_mean :
    (∀ quotes : List Quote,
      (computeAverage quotes).average_buy_price
          = (if finitePrices (quotes.map Quote.buy_price) = [] then none
            else some (toFixed6 (doubleMean (finitePrices (quotes.map Quote.buy_price)))))
      ∧ (computeAverage quotes).average_sell_price
          = (if finitePrices (quotes.map Quote.sell_price) = [] then none
            else some (toFixed6 (doubleMean (finitePrices (quotes.map Quote.sell_price))))))
    ∧ (∀ x : ℚ, |x| < 10 ^ 21 → IsRounded6 x (toFixed6 (JsNumber.finite x)))
    ∧ (computeAverage [⟨some (.finite 850), none, "a"⟩, ⟨some (.finite 860), none, "b"⟩,
          ⟨none, none, "c"⟩]).average_buy_price = some (.finite 855)
    ∧ (computeAverage [⟨none, some (.finite 1), "a"⟩, ⟨none, some (.finite 2), "b"⟩]).average_buy_price
        = none := by
  refine ⟨fun quotes => ⟨?_, ?_⟩, toFixed6_isRounded6, by decide!, by decide!⟩
  · simp only [computeAverage, averageOf_eq]
  · simp only [computeAverage, averageOf_eq]

/-- Instance of C7: the mean of 850 and 860 is 855, and `toFixed(6)` of the number 855 is
855 rounded to 6 decimal digits. -/
theorem computeAverage_double_mean_witness :
    doubleMean [.finite 850, .finite 860] = .finite 855
    ∧ IsRounded6 855 (toFixed6 (JsNumber.finite 855)) :=
  ⟨by decide!, computeAverage_double_mean.2.1 855 (by norm_num)⟩

/-- C7 fails as stated.  For the buy prices `2^1023` and `2^1023` the sum overflows and the
average returned is `Infinity`, while their mean is `2^1023`.  For the buy prices 3.002578
and 9.538487 the average returned is 6.270532, while the mean of the two doubles, rounded
to 6 decimal digits, is 6.270533: the sum is rounded before it is halved. -/
theorem computeAverage_not_exact_mean :
    (computeAverage [⟨some (.finite (2 ^ 1023)), none, "a"⟩,
        ⟨some (.finite (2 ^ 1023)), none, "b"⟩]).average_buy_price = some .posInf
    ∧ toDouble (2 ^ 1023) = .finite (2 ^ 1023)
    ∧ (computeAverage [⟨some (toDouble 3.002578), none, "a"⟩,
        ⟨some (toDouble 9.538487), none, "b"⟩]).average_buy_price = some (toDouble 6.270532)
    ∧ ⌊(valueOf (toDouble 3.002578) + valueOf (toDouble 9.538487)) / 2 * 10 ^ 6 + 1 / 2⌋
        = 6270533
    ∧ toDouble 6.270532 ≠ toDouble 6.270533 := by
  refine ⟨by decide!, by decide!, by decide!, by decide!, by decide!⟩

theorem slippageOf_eq_none_iff (price avg : Option JsNumber) :
    slippageOf price avg = none ↔ price = none ∨ avg = none := by
  cases price <;> cases avg <;> simp [slippageOf]

/-- C8, as the code has it: `computeSlippage` returns one record per quote, in order, with
the source of the quote; a side is absent exactly when the price or the average is absent,
and otherwise it is `(price - average) / average` as double arithmetic gives it (the
difference and the quotient each rounded, overflow giving an infinity), passed through
`toFixed(6)`, which below `1e21` is rounding to 6 decimal digits. -/
theorem computeSlippage_per_quote (quotes : List Quote) (avg : AverageStats) :
    List.Forall₂ (fun (q : Quote) (r : SlippageRecord) =>
        r.source = q.source
        ∧ (r.buy_price_slippage = none ↔ q.buy_price = none ∨ avg.average_buy_price = none)
        ∧ (r.sell_price_slippage = none ↔ q.sell_price = none ∨ avg.average_sell_price = none)
        ∧ (∀ p a : JsNumber, q.buy_price = some p → avg.average_buy_price = some a →
            r.buy_price_slippage = some (toFixed6 (fdiv (fsub p a) a)))
        ∧ (∀ p a : JsNumber, q.sell_price = some p → avg.average_sell_price = some a →
            r.sell_price_slippage = some (toFixed6 (fdiv (fsub p a) a))))
      quotes (computeSlippage quotes avg)
    ∧ (∀ x : ℚ, |x| < 10 ^ 21 → IsRounded6 x (toFixed6 (JsNumber.finite x))) := by
  refine ⟨?_, toFixed6_isRounded6⟩
  induction quotes with
  | nil => exact List.Forall₂.nil
  | cons q rest ih =>
    refine List.Forall₂.cons ⟨rfl, slippageOf_eq_none_iff _ _, slippageOf_eq_none_iff _ _, ?_, ?_⟩ ih
    · intro p a hp ha
      simp [hp, ha, slippageOf]
    · intro p a hp ha
      simp [hp, ha, slippageOf]

/-- Instance of C8 named by the specification: a buy price of 860 against an average of 850
has slippage 0.011765. -/
theorem computeSlippage_per_quote_witness :
    ∀ r ∈ computeSlippage [⟨some (.finite 860), none, "s"⟩] ⟨some (.finite 850), none⟩,
      r.source = "s" ∧ r.buy_price_slippage = some (toDouble 0.011765)
        ∧ r.sell_price_slippage = none := by
  intro r hr
  have hr2 : r = ⟨"s", slippageOf (some (.finite 860)) (some (.finite 850)),
      slippageOf none none⟩ := by
    simpa [computeSlippage] using hr
  have h : List.Forall₂ _ [(⟨some (.finite 860), none, "s"⟩ : Quote)]
      [(⟨"s", slippageOf (some (.finite 860)) (some (.finite 850)), slippageOf none none⟩ :
        SlippageRecord)] :=
    (computeSlippage_per_quote [⟨some (.finite 860), none, "s"⟩] ⟨some (.finite 850), none⟩).1
  obtain ⟨h1, -, h3, h4, -⟩ := (List.forall₂_cons.mp h).1
  rw [hr2]
  refine ⟨h1, ?_, h3.mpr (Or.inl rfl)⟩
  rw [h4 (.finite 860) (.finite 850) rfl rfl]
  decide!

/-- C8 fails as stated: for the buy price `2^1023` and the non-zero average `-2^1023` the
difference overflows and the slippage returned is `-Infinity`, while
`(price - average) / average` is `-2`. -/
theorem computeSlippage_not_exact_quotient :
    computeSlippage [⟨some (.finite (2 ^ 1023)), none, "s"⟩] ⟨some (.finite (-2 ^ 1023)), none⟩
        = [⟨"s", some .negInf, none⟩]
    ∧ toDouble (2 ^ 1023) = .finite (2 ^ 1023)
    ∧ toDouble (-2 ^ 1023) = .finite (-2 ^ 1023)
    ∧ ((2 : ℚ) ^ 1023 - -2 ^ 1023) / (-2 ^ 1023) = -2 := by
  refine ⟨by decide!, by decide!, by decide!, by norm_num⟩



/-! ## The extractor: fields that are already resolved -/

theorem truthy_some_iff (v : ℚ) : truthy (some (JsNumber.finite v)) = true ↔ v ≠ 0 := by
  simp [truthy]

theorem orElse_of_truthy {a : Option JsNumber} (b : Option JsNumber) (h : truthy a = true) :
    orElse a b = a := by
  simp [orElse, h]

theorem orElse_of_not_truthy {a : Option JsNumber} (b : Option JsNumber)
    (h : truthy a = false) :
    orElse a b = b := by
  simp [orElse, h]

theorem trySelectors_truthy_or_none (dom : Dom) (sels : List String) :
    trySelectors dom sels = none ∨ truthy (trySelectors dom sels) = true := by
  induction sels with
  | nil => exact Or.inl rfl
  | cons sel rest ih =>
    unfold trySelectors
    by_cases h : truthy (parseCurrencyNumber (classText dom sel)) = true
    · rw [if_pos h]
      exact Or.inr h
    · rw [if_neg h]
      exact ih

theorem strategy3_buy_of_truthy (dom : Dom) {st : PricePair} (h : truthy st.buy = true) :
    (strategy3 dom st).buy = st.buy := by
  unfold strategy3
  split
  · simp [h]
  · rfl

theorem strategy3_sell_of_truthy (dom : Dom) {st : PricePair} (h : truthy st.sell = true) :
    (strategy3 dom st).sell = st.sell := by
  unfold strategy3
  split
  · simp [h]
  · rfl

theorem strategy4_buy_of_truthy (dom : Dom) {st : PricePair} (h : truthy st.buy = true) :
    (strategy4 dom st).buy = st.buy := by
  unfold strategy4
  split
  · simp [h]
  · rfl

theorem strategy4_sell_of_truthy (dom : Dom) {st : PricePair} (h : truthy st.sell = true) :
    (strategy4 dom st).sell = st.sell := by
  unfold strategy4
  split
  · simp [h]
  · rfl

theorem extractFromHtml_some (toLowerCase : List Char → List Char) (dom : Dom) (code : String) :
    extractFromHtml toLowerCase (some dom) code
      = if (!truthy (afterStrategy2 toLowerCase dom).buy
            || !truthy (afterStrategy2 toLowerCase dom).sell) = true
        then strategy4 dom (afterStrategy3 toLowerCase dom)
        else afterStrategy2 toLowerCase dom := rfl

theorem extractFromHtml_buy_of_truthy (toLowerCase : List Char → List Char) (dom : Dom)
    (code : String) (h : truthy (afterStrategy2 toLowerCase dom).buy = true) :
    (extractFromHtml toLowerCase (some dom) code).buy = (afterStrategy2 toLowerCase dom).buy := by
  rw [extractFromHtml_some]
  split
  · have h3 := strategy3_buy_of_truthy dom h
    have h3t : truthy (strategy3 dom (afterStrategy2 toLowerCase dom)).buy = true := by
      rw [h3]; exact h
    rw [afterStrategy3, strategy4_buy_of_truthy dom h3t, h3]
  · rfl

theorem extractFromHtml_sell_of_truthy (toLowerCase : List Char → List Char) (dom : Dom)
    (code : String) (h : truthy (afterStrategy2 toLowerCase dom).sell = true) :
    (extractFromHtml toLowerCase (some dom) code).sell = (afterStrategy2 toLowerCase dom).sell := by
  rw [extractFromHtml_some]
  split
  · have h3 := strategy3_sell_of_truthy dom h
    have h3t : truthy (strategy3 dom (afterStrategy2 toLowerCase dom)).sell = true := by
      rw [h3]; exact h
    rw [afterStrategy3, strategy4_sell_of_truthy dom h3t, h3]
  · rfl

/-- C9, as the code has it: a non-zero value that the labelled scan resolved, and a value
that the selector lookup resolved for a field the scan left falsy, is the value returned. -/
theorem extractFromHtml_keeps_resolved (toLowerCase : List Char → List Char) (dom : Dom)
    (code : String) :
    (∀ v : ℚ, (strategy1 toLowerCase dom).buy = some (.finite v) → v ≠ 0 →
        (extractFromHtml toLowerCase (some dom) code).buy = some (.finite v))
    ∧ (∀ v : ℚ, (strategy1 toLowerCase dom).sell = some (.finite v) → v ≠ 0 →
        (extractFromHtml toLowerCase (some dom) code).sell = some (.finite v))
    ∧ (∀ v : JsNumber, truthy (strategy1 toLowerCase dom).buy = false →
        trySelectors dom buySelectors = some v →
        (extractFromHtml toLowerCase (some dom) code).buy = some v)
    ∧ (∀ v : JsNumber, truthy (strategy1 toLowerCase dom).sell = false →
        trySelectors dom sellSelectors = some v →
        (extractFromHtml toLowerCase (some dom) code).sell = some v) := by
  refine ⟨?_, ?_, ?_, ?_⟩
  · intro v hv hne
    have ht : truthy (strategy1 toLowerCase dom).buy = true := by
      rw [hv]; exact (truthy_some_iff v).mpr hne
    have h2 : (afterStrategy2 toLowerCase dom).buy = some (.finite v) := by
      simp only [afterStrategy2, strategy2]
      rw [orElse_of_truthy _ ht, hv]
    rw [extractFromHtml_buy_of_truthy toLowerCase dom code (by rw [h2, ← hv]; exact ht), h2]
  · intro v hv hne
    have ht : truthy (strategy1 toLowerCase dom).sell = true := by
      rw [hv]; exact (truthy_some_iff v).mpr hne
    have h2 : (afterStrategy2 toLowerCase dom).sell = some (.finite v) := by
      simp only [afterStrategy2, strategy2]
      rw [orElse_of_truthy _ ht, hv]
    rw [extractFromHtml_sell_of_truthy toLowerCase dom code (by rw [h2, ← hv]; exact ht), h2]
  · intro v hf hv
    have h2 : (afterStrategy2 toLowerCase dom).buy = some v := by
      simp only [afterStrategy2, strategy2, orElse_of_not_truthy _ hf, hv]
    have ht : truthy (some v) = true := by
      rcases trySelectors_truthy_or_none dom buySelectors with h | h
      · rw [hv] at h; exact Option.noConfusion h
      · rw [hv] at h; exact h
    rw [extractFromHtml_buy_of_truthy toLowerCase dom code (by rw [h2]; exact ht), h2]
  · intro v hf hv
    have h2 : (afterStrategy2 toLowerCase dom).sell = some v := by
      simp only [afterStrategy2, strategy2, orElse_of_not_truthy _ hf, hv]
    have ht : truthy (some v) = true := by
      rcases trySelectors_truthy_or_none dom sellSelectors with h | h
      · rw [hv] at h; exact Option.noConfusion h
      · rw [hv] at h; exact h
    rw [extractFromHtml_sell_of_truthy toLowerCase dom code (by rw [h2]; exact ht), h2]

/-- Instance of C9: the labelled values win over a `1 USD =` pattern and free numbers. -/
theorem extractFromHtml_keeps_resolved_witness :
    (extractFromHtml asciiLower
        (some (pageOfText "1 USD = 900 Compra: 850.50 Venta: 870.25 2024")) "ARS").buy
      = some (.finite 850.5) :=
  (extractFromHtml_keeps_resolved asciiLower
    (pageOfText "1 USD = 900 Compra: 850.50 Venta: 870.25 2024") "ARS").1
    850.5 (by decide!) (by norm_num)

/-- C9 fails as stated: on the page `Compra: 0 Venta: 5` the labelled scan resolves buy to
the number 0, and the value returned for buy is 5, taken by Strategy 4. -/
theorem extractFromHtml_zero_not_kept :
    (strategy1 asciiLower (pageOfText "Compra: 0 Venta: 5")).buy = some (.finite 0)
    ∧ (extractFromHtml asciiLower (some (pageOfText "Compra: 0 Venta: 5")) "ARS").buy
        = some (.finite 5)
    ∧ ¬ (∀ (dom : Dom) (v : JsNumber), (strategy1 asciiLower dom).buy = some v →
          (extractFromHtml asciiLower (some dom) "ARS").buy = some v) := by
  refine ⟨by decide!, by decide!, fun h => ?_⟩
  have h1 := h (pageOfText "Compra: 0 Venta: 5") (.finite 0) (by decide!)
  exact absurd h1 (by decide!)


/-! ## The extractor: the numeric-candidate fallback -/

theorem foldl_uniqueStep (l acc : List (List Char)) :
    l.foldl (fun acc x => if acc.contains x then acc else acc ++ [x]) acc
      = acc ++ (dedupKeepFirst l).filter (fun y => !acc.contains y) := by
  induction l generalizing acc with
  | nil => simp [dedupKeepFirst]
  | cons x xs ih =>
    rw [List.foldl_cons, dedupKeepFirst]
    by_cases hx : x ∈ acc
    · have hc : acc.contains x = true := by simpa using hx
      rw [if_pos hc, ih, List.filter_cons, if_neg (by simp [hx]), List.filter_filter]
      congr 1
      apply List.filter_congr
      intro y _
      by_cases hy : y ∈ acc
      · simp [hy]
      · have hne : y ≠ x := fun e => hy (e ▸ hx)
        simp [hy, hne]
    · have hc : ¬ acc.contains x = true := by simpa using hx
      rw [if_neg hc, ih, List.filter_cons, if_pos (by simp [hx]), List.filter_filter,
        List.append_assoc, List.singleton_append]
      congr 2
      apply List.filter_congr
      intro y _
      by_cases hyx : y = x
      · simp [hyx]
      · simp [hyx]

theorem uniqueInOrder_eq_dedupKeepFirst (l : List (List Char)) :
    uniqueInOrder l = dedupKeepFirst l := by
  unfold uniqueInOrder
  rw [foldl_uniqueStep]
  simp

theorem band_finite {v : JsNumber} (h1 : greaterThan v 1 = true) (h2 : lessThan v 10000 = true) :
    ∃ q : ℚ, v = JsNumber.finite q ∧ 1 < q ∧ q < 10000 := by
  cases v with
  | finite q => exact ⟨q, rfl, by simpa [greaterThan] using h1, by simpa [lessThan] using h2⟩
  | negZero =>
    simp only [greaterThan, decide_eq_true_eq] at h1
    exact absurd h1 (by norm_num)
  | posInf => simp [lessThan] at h2
  | negInf => simp [greaterThan] at h1
  | nan => simp [greaterThan] at h1

theorem truthy_of_band {v : JsNumber} (h1 : greaterThan v 1 = true)
    (h2 : lessThan v 10000 = true) : truthy (some v) = true := by
  obtain ⟨q, rfl, hq, -⟩ := band_finite h1 h2
  rw [truthy_some_iff]
  intro e
  rw [e] at hq
  exact absurd hq (by norm_num)

theorem candidates_filter_eq (l : List (List Char)) :
    (l.map parseCurrencyNumber).filterMap
        (fun n => match n with
          | some v => if truthy (some v) && greaterThan v 1 && lessThan v 10000 then some v
            else none
          | none => none)
      = (l.filterMap parseCurrencyNumber).filter
        (fun v => greaterThan v 1 && lessThan v 10000) := by
  induction l with
  | nil => rfl
  | cons x xs ih =>
    rw [List.map_cons, List.filterMap_cons, List.filterMap_cons, ih]
    cases hx : parseCurrencyNumber x with
    | none => rfl
    | some v =>
      simp only [List.filter_cons]
      by_cases h1 : greaterThan v 1 = true
      · by_cases h2 : lessThan v 10000 = true
        · simp [truthy_of_band h1 h2, h1, h2]
        · simp [h1, h2]
      · simp [h1]

theorem candidates_eq_specCandidates (dom : Dom) :
    candidates dom = specCandidates (bodyText dom) := by
  unfold candidates specCandidates
  rw [uniqueInOrder_eq_dedupKeepFirst, candidates_filter_eq]

theorem specCandidates_band (body : List Char) :
    ∀ v ∈ specCandidates body, ∃ q : ℚ, v = JsNumber.finite q ∧ 1 < q ∧ q < 10000 := by
  intro v hv
  unfold specCandidates at hv
  have h := (List.mem_filter.mp hv).2
  rw [Bool.and_eq_true] at h
  exact band_finite h.1 h.2

theorem specCandidates_truthy (body : List Char) :
    ∀ v ∈ specCandidates body, truthy (some v) = true := by
  intro v hv
  unfold specCandidates at hv
  have h := (List.mem_filter.mp hv).2
  rw [Bool.and_eq_true] at h
  exact truthy_of_band h.1 h.2

theorem orElse_second_first {cs : List JsNumber} (h : ∀ v ∈ cs, truthy (some v) = true) :
    orElse (cs.get? 1) cs.head? = secondOrFirst cs := by
  match cs, h with
  | [], _ => rfl
  | [c], _ => rfl
  | _ :: c :: _, h =>
    have hc : truthy (some c) = true := h c (by simp)
    simp [orElse, secondOrFirst, hc]

theorem not_truthy_of_strategy3_none (dom : Dom) {st : PricePair}
    (h : strategy3 dom st = ⟨none, none⟩) : truthy st.buy = false ∧ truthy st.sell = false := by
  constructor
  · by_contra hb
    rw [Bool.not_eq_false] at hb
    have := strategy3_buy_of_truthy dom hb
    rw [h] at this
    rw [← this] at hb
    exact absurd hb (by decide)
  · by_contra hb
    rw [Bool.not_eq_false] at hb
    have := strategy3_sell_of_truthy dom hb
    rw [h] at this
    rw [← this] at hb
    exact absurd hb (by decide)

theorem take_takeWhile_append_drop (p : Char → Bool) (n : ℕ) (r : List Char) :
    (r.takeWhile p).take n ++ r.drop ((r.takeWhile p).take n).length = r := by
  induction r generalizing n with
  | nil => simp
  | cons x xs ih =>
    by_cases hx : p x = true
    · rw [List.takeWhile_cons_of_pos hx]
      cases n with
      | zero => simp
      | succ k =>
        rw [List.take_succ_cons, List.length_cons, List.drop_succ_cons, List.cons_append, ih]
    · rw [List.takeWhile_cons_of_neg hx]
      simp

theorem allDigits_takeWhile (s : List Char) : AllDigits (s.takeWhile isDigit) := by
  intro c hc
  induction s with
  | nil => simp at hc
  | cons x xs ih =>
    by_cases hx : isDigit x = true
    · rw [List.takeWhile_cons_of_pos hx] at hc
      rcases List.mem_cons.mp hc with h | h
      · rw [h]; exact hx
      · exact ih h
    · rw [List.takeWhile_cons_of_neg hx] at hc
      simp at hc

/-- A match of the pattern of line 165 is a head of the text and has the price shape. -/
theorem matchNumberAt_spec {s m rest : List Char} (h : matchNumberAt s = some (m, rest)) :
    s = m ++ rest ∧ PriceShape m := by
  have hsplit : s.takeWhile isDigit ++ s.dropWhile isDigit = s := List.takeWhile_append_dropWhile _ _
  have hip : AllDigits (s.takeWhile isDigit) := allDigits_takeWhile s
  unfold matchNumberAt at h
  simp only at h
  split at h
  · exact Option.noConfusion h
  · rename_i hne
    have hne2 : s.takeWhile isDigit ≠ [] := by
      intro e
      rw [e] at hne
      exact hne rfl
    split at h
    · rename_i sep r hdw
      split at h
      · rename_i hcond
        simp only [Option.some.injEq, Prod.mk.injEq] at h
        obtain ⟨hm, hr⟩ := h
        rw [Bool.and_eq_true, Bool.or_eq_true, beq_iff_eq, beq_iff_eq] at hcond
        have hfp : AllDigits ((r.takeWhile isDigit).take 4) :=
          fun c hc => allDigits_takeWhile r c (List.mem_of_mem_take hc)
        have hfne : (r.takeWhile isDigit).take 4 ≠ [] := by
          intro e
          rw [e] at hcond
          exact absurd hcond.2 (by decide)
        refine ⟨?_, s.takeWhile isDigit, (r.takeWhile isDigit).take 4, hne2, hip, hfp,
          by simp [List.length_take], Or.inr ⟨hfne, ?_⟩⟩
        · rw [← hm, ← hr, List.append_assoc, List.cons_append,
            take_takeWhile_append_drop, ← hdw, hsplit]
        · rcases hcond.1 with e | e
          · exact Or.inl (by rw [← hm, e])
          · exact Or.inr (by rw [← hm, e])
      · simp only [Option.some.injEq, Prod.mk.injEq] at h
        obtain ⟨hm, hr⟩ := h
        refine ⟨?_, s.takeWhile isDigit, [], hne2, hip, by intro c hc; simp at hc, by simp,
          Or.inl hm.symm⟩
        rw [← hm, ← hr, ← hdw, hsplit]
    · rename_i hdw
      simp only [Option.some.injEq, Prod.mk.injEq] at h
      obtain ⟨hm, hr⟩ := h
      refine ⟨?_, s.takeWhile isDigit, [], hne2, hip, by intro c hc; simp at hc, by simp,
        Or.inl hm.symm⟩
      rw [← hm, ← hr, ← hdw, hsplit]

theorem priceShape_ne_nil {m : List Char} (h : PriceShape m) : m ≠ [] := by
  obtain ⟨ip, fp, hne, -, -, -, hm⟩ := h
  rcases hm with e | ⟨-, e | e⟩
  · rw [e]; exact hne
  · rw [e]; simp
  · rw [e]; simp

theorem matchNumberAt_rest_length {c : Char} {cs m rest : List Char}
    (h : matchNumberAt (c :: cs) = some (m, rest)) : rest.length ≤ cs.length := by
  obtain ⟨hs, hshape⟩ := matchNumberAt_spec h
  have hlen := congrArg List.length hs
  have hm : 0 < m.length := List.length_pos.mpr (priceShape_ne_nil hshape)
  rw [List.length_cons, List.length_append] at hlen
  omega

/-- The bound on the number of steps does not cut the scan short: from the length of the
text on, the result no longer depends on it. -/
theorem scanNumbersFrom_fuel (n k : ℕ) (s : List Char) (hn : s.length ≤ n) (hk : s.length ≤ k) :
    scanNumbersFrom n s = scanNumbersFrom k s := by
  induction n generalizing s k with
  | zero =>
    have hs : s = [] := List.length_eq_zero.mp (Nat.le_zero.mp hn)
    rw [hs]
    cases k <;> rfl
  | succ n ih =>
    cases s with
    | nil => cases k <;> rfl
    | cons c cs =>
      cases k with
      | zero => simp at hk
      | succ k =>
        rw [List.length_cons] at hn hk
        unfold scanNumbersFrom
        cases hm : matchNumberAt (c :: cs) with
        | none => exact ih k cs (by omega) (by omega)
        | some mr =>
          obtain ⟨m, rest⟩ := mr
          have hr := matchNumberAt_rest_length hm
          simp only
          rw [ih k rest (by omega) (by omega)]

/-- Every match of the scan is a substring of the text with the price shape, and the matches
follow one another in the text without overlap. -/
theorem scanNumbersFrom_spec (n : ℕ) (s : List Char) :
    (∀ m ∈ scanNumbersFrom n s, PriceShape m ∧ ∃ a b : List Char, s = a ++ m ++ b)
    ∧ List.Sublist (scanNumbersFrom n s).flatten s := by
  induction n generalizing s with
  | zero => exact ⟨fun m hm => by simp [scanNumbersFrom] at hm, by simp [scanNumbersFrom]⟩
  | succ n ih =>
    cases s with
    | nil => exact ⟨fun m hm => by simp [scanNumbersFrom] at hm, by simp [scanNumbersFrom]⟩
    | cons c cs =>
      unfold scanNumbersFrom
      cases hm : matchNumberAt (c :: cs) with
      | none =>
        simp only
        refine ⟨fun m hmem => ?_, List.Sublist.cons c (ih cs).2⟩
        obtain ⟨hshape, a, b, hab⟩ := (ih cs).1 m hmem
        exact ⟨hshape, c :: a, b, by rw [hab]; simp⟩
      | some mr =>
        obtain ⟨m0, rest⟩ := mr
        obtain ⟨hs, hshape⟩ := matchNumberAt_spec hm
        simp only
        refine ⟨fun m hmem => ?_, ?_⟩
        · rcases List.mem_cons.mp hmem with h | h
          · rw [h]
            exact ⟨hshape, [], rest, by rw [hs]; simp⟩
          · obtain ⟨hsh, a, b, hab⟩ := (ih rest).1 m h
            exact ⟨hsh, m0 ++ a, b, by rw [hs, hab]; simp⟩
        · rw [List.flatten_cons, hs]
          exact List.Sublist.append (List.Sublist.refl m0) (ih rest).2

theorem extractFromHtml_of_unresolved (toLowerCase : List Char → List Char) (dom : Dom)
    (code : String) (h : afterStrategy3 toLowerCase dom = ⟨none, none⟩) :
    extractFromHtml toLowerCase (some dom) code
      = ⟨(specCandidates (bodyText dom)).head?, secondOrFirst (specCandidates (bodyText dom))⟩ := by
  obtain ⟨hb, hs⟩ := not_truthy_of_strategy3_none dom h
  rw [extractFromHtml_some, hb, hs, if_pos (by decide), h]
  simp only [strategy4, candidates_eq_specCandidates]
  rw [orElse_second_first (specCandidates_truthy _)]
  cases hC : specCandidates (bodyText dom) with
  | nil => simp [truthy, secondOrFirst]
  | cons c cs => simp [truthy]

/-- C10: when Strategies 1-3 leave both fields absent, the result is read off the list `C`
of the specification (matches of the price shape in body order, duplicates removed keeping
the first, at most 20, normalized, kept when `1 < v < 10000`): buy is its first element, sell
its second or, failing that, its first, both absent when `C` is empty; every element of `C`
lies strictly between 1 and 10000; every scanned match is a substring of the body text of
the price shape, the matches keep the order of the text, and the step bound of the scan
never cuts it short. -/
theorem extractFromHtml_fallback (toLowerCase : List Char → List Char) (dom : Dom)
    (code : String) (h : afterStrategy3 toLowerCase dom = ⟨none, none⟩) :
    extractFromHtml toLowerCase (some dom) code
        = ⟨(specCandidates (bodyText dom)).head?, secondOrFirst (specCandidates (bodyText dom))⟩
    ∧ (specCandidates (bodyText dom) = [] →
        extractFromHtml toLowerCase (some dom) code = ⟨none, none⟩)
    ∧ (∀ v ∈ specCandidates (bodyText dom), ∃ q : ℚ, v = JsNumber.finite q ∧ 1 < q ∧ q < 10000)
    ∧ (∀ m ∈ scanNumbers (bodyText dom),
        PriceShape m ∧ ∃ a b : List Char, bodyText dom = a ++ m ++ b)
    ∧ List.Sublist (scanNumbers (bodyText dom)).flatten (bodyText dom)
    ∧ (∀ n : ℕ, (bodyText dom).length ≤ n →
        scanNumbersFrom n (bodyText dom) = scanNumbers (bodyText dom)) := by
  have hres := extractFromHtml_of_unresolved toLowerCase dom code h
  refine ⟨hres, fun hC => ?_, specCandidates_band _, (scanNumbersFrom_spec _ _).1,
    (scanNumbersFrom_spec _ _).2, fun n hn => scanNumbersFrom_fuel n _ _ hn (le_refl _)⟩
  rw [hres, hC]
  rfl

/-- Instance of C10: on the free text `Precio 875,30 y 880,10 (antes 875,30)` the duplicate
is dropped and buy and sell are the first two values, in the order of the text. -/
theorem extractFromHtml_fallback_witness :
    afterStrategy3 asciiLower (pageOfText "Precio 875,30 y 880,10 (antes 875,30)") = ⟨none, none⟩
    ∧ specCandidates (bodyText (pageOfText "Precio 875,30 y 880,10 (antes 875,30)"))
        = [toDouble 875.3, toDouble 880.1]
    ∧ extractFromHtml asciiLower (some (pageOfText "Precio 875,30 y 880,10 (antes 875,30)")) "ARS"
        = ⟨some (toDouble 875.3), some (toDouble 880.1)⟩ := by
  have hC : specCandidates (bodyText (pageOfText "Precio 875,30 y 880,10 (antes 875,30)"))
      = [toDouble 875.3, toDouble 880.1] := by decide!
  have h := (extractFromHtml_fallback asciiLower
    (pageOfText "Precio 875,30 y 880,10 (antes 875,30)") "ARS" (by decide!)).1
  rw [hC] at h
  exact ⟨by decide!, hC, h⟩


/-! ## The extractor: pages without labels -/

theorem scanField_of_not_contains {label text : List Char} (cur : Option JsNumber)
    (h : containsLiteral label text = false) : scanField label cur text = cur := by
  simp [scanField, h]

theorem foldl_scanElement_sell (toLowerCase : List Char → List Char) (texts : List (List Char))
    (h : ∀ t ∈ texts, containsLiteral "venta".data (normalizeText toLowerCase t) = false)
    (st : PricePair) : (texts.foldl (scanElement toLowerCase) st).sell = st.sell := by
  induction texts generalizing st with
  | nil => rfl
  | cons t ts ih =>
    rw [List.foldl_cons, ih (fun t' ht' => h t' (by simp [ht']))]
    unfold scanElement
    split
    · rfl
    · simp only
      split
      · rfl
      · exact scanField_of_not_contains _ (h t (by simp))

theorem foldl_scanElement_buy (toLowerCase : List Char → List Char) (texts : List (List Char))
    (h : ∀ t ∈ texts, containsLiteral "compra".data (normalizeText toLowerCase t) = false)
    (st : PricePair) : (texts.foldl (scanElement toLowerCase) st).buy = st.buy := by
  induction texts generalizing st with
  | nil => rfl
  | cons t ts ih =>
    rw [List.foldl_cons, ih (fun t' ht' => h t' (by simp [ht']))]
    unfold scanElement
    split
    · rfl
    · simp only
      split
      · rfl
      · exact scanField_of_not_contains _ (h t (by simp))

theorem strategy1_sell_of_no_label (toLowerCase : List Char → List Char) (dom : Dom)
    (h : ∀ el ∈ domElements dom,
      containsLiteral "venta".data (normalizeText toLowerCase (textContent el)) = false) :
    (strategy1 toLowerCase dom).sell = none := by
  unfold strategy1
  rw [foldl_scanElement_sell]
  intro t ht
  obtain ⟨el, hel, rfl⟩ := List.mem_map.mp ht
  exact h el hel

theorem strategy1_buy_of_no_label (toLowerCase : List Char → List Char) (dom : Dom)
    (h : ∀ el ∈ domElements dom,
      containsLiteral "compra".data (normalizeText toLowerCase (textContent el)) = false) :
    (strategy1 toLowerCase dom).buy = none := by
  unfold strategy1
  rw [foldl_scanElement_buy]
  intro t ht
  obtain ⟨el, hel, rfl⟩ := List.mem_map.mp ht
  exact h el hel

theorem secondOrFirst_eq_none_iff (cs : List JsNumber) : secondOrFirst cs = none ↔ cs = [] := by
  match cs with
  | [] => simp [secondOrFirst]
  | [c] => simp [secondOrFirst]
  | _ :: c :: _ => simp [secondOrFirst]

theorem strategy4_of_sell_none (dom : Dom) {st : PricePair} (hb : truthy st.buy = true)
    (hs : st.sell = none) :
    strategy4 dom st = ⟨st.buy, secondOrFirst (specCandidates (bodyText dom))⟩ := by
  unfold strategy4
  rw [hs, hb]
  simp only [candidates_eq_specCandidates, truthy]
  rw [orElse_second_first (specCandidates_truthy _)]
  cases hC : specCandidates (bodyText dom) with
  | nil => simp [secondOrFirst]
  | cons c cs => simp

theorem strategy4_of_buy_none (dom : Dom) {st : PricePair} (hb : st.buy = none)
    (hs : truthy st.sell = true) :
    strategy4 dom st = ⟨(specCandidates (bodyText dom)).head?, st.sell⟩ := by
  unfold strategy4
  rw [hb, hs]
  simp only [candidates_eq_specCandidates, truthy]
  cases hC : specCandidates (bodyText dom) with
  | nil => simp
  | cons c cs => simp

/-- C3, as the code has it: on a page with a buy price and no venta label, no sell selector
and no `1 USD =` pattern, buy is kept and sell is the second numeric candidate of Strategy 4,
or the first when there is one only; sell is absent exactly when there is no candidate
strictly between 1 and 10000.  The same holds with the two sides exchanged, buy then being
the first candidate. -/
theorem extractFromHtml_one_sided (toLowerCase : List Char → List Char) (dom : Dom)
    (code : String) (husd : matchUsd (bodyText dom) = none) :
    ((∀ el ∈ domElements dom,
          containsLiteral "venta".data (normalizeText toLowerCase (textContent el)) = false) →
        trySelectors dom sellSelectors = none →
        truthy (afterStrategy2 toLowerCase dom).buy = true →
        (extractFromHtml toLowerCase (some dom) code).buy = (afterStrategy2 toLowerCase dom).buy
        ∧ (extractFromHtml toLowerCase (some dom) code).sell
            = secondOrFirst (specCandidates (bodyText dom))
        ∧ ((extractFromHtml toLowerCase (some dom) code).sell = none
            ↔ specCandidates (bodyText dom) = []))
    ∧ ((∀ el ∈ domElements dom,
          containsLiteral "compra".data (normalizeText toLowerCase (textContent el)) = false) →
        trySelectors dom buySelectors = none →
        truthy (afterStrategy2 toLowerCase dom).sell = true →
        (extractFromHtml toLowerCase (some dom) code).sell = (afterStrategy2 toLowerCase dom).sell
        ∧ (extractFromHtml toLowerCase (some dom) code).buy
            = (specCandidates (bodyText dom)).head?
        ∧ ((extractFromHtml toLowerCase (some dom) code).buy = none
            ↔ specCandidates (bodyText dom) = [])) := by
  have h3 : afterStrategy3 toLowerCase dom = afterStrategy2 toLowerCase dom := by
    simp only [afterStrategy3, strategy3, husd]
  constructor
  · intro hlabel hsel hbuy
    have hs2 : (afterStrategy2 toLowerCase dom).sell = none := by
      simp only [afterStrategy2, strategy2, strategy1_sell_of_no_label toLowerCase dom hlabel,
        hsel, orElse, truthy]
      rfl
    have hres : extractFromHtml toLowerCase (some dom) code
        = ⟨(afterStrategy2 toLowerCase dom).buy, secondOrFirst (specCandidates (bodyText dom))⟩ := by
      rw [extractFromHtml_some, hs2, h3, strategy4_of_sell_none dom hbuy hs2]
      simp [truthy]
    rw [hres]
    exact ⟨rfl, rfl, secondOrFirst_eq_none_iff _⟩
  · intro hlabel hsel hsell
    have hb2 : (afterStrategy2 toLowerCase dom).buy = none := by
      simp only [afterStrategy2, strategy2, strategy1_buy_of_no_label toLowerCase dom hlabel,
        hsel, orElse, truthy]
      rfl
    have hres : extractFromHtml toLowerCase (some dom) code
        = ⟨(specCandidates (bodyText dom)).head?, (afterStrategy2 toLowerCase dom).sell⟩ := by
      rw [extractFromHtml_some, hb2, h3, strategy4_of_buy_none dom hb2 hsell]
      simp [truthy]
    rw [hres]
    exact ⟨rfl, rfl, List.head?_eq_none_iff⟩

/-- Instance of C3 with a one-sided result: on the page `Compra: 0.50` no number lies
strictly between 1 and 10000, so buy is 0.5 and sell stays absent. -/
theorem extractFromHtml_one_sided_witness :
    (extractFromHtml asciiLower (some (pageOfText "Compra: 0.50")) "ARS").buy
        = some (.finite 0.5)
    ∧ (extractFromHtml asciiLower (some (pageOfText "Compra: 0.50")) "ARS").sell = none := by
  have h := (extractFromHtml_one_sided asciiLower (pageOfText "Compra: 0.50") "ARS"
    (by decide)).1 (by decide) (by decide!) (by decide!)
  have hb : (afterStrategy2 asciiLower (pageOfText "Compra: 0.50")).buy
      = some (.finite 0.5) := by decide!
  have hC : specCandidates (bodyText (pageOfText "Compra: 0.50")) = [] := by decide!
  exact ⟨h.1.trans hb, h.2.2.mpr hC⟩

/-- C3 fails as stated: the page `Compra: 850.50` has no venta label, no sell selector and no
`1 USD =` pattern, and the extractor returns sell = 850.5, the only numeric candidate. -/
theorem extractFromHtml_buy_only_filled :
    (∀ el ∈ domElements (pageOfText "Compra: 850.50"),
        containsLiteral "venta".data (normalizeText asciiLower (textContent el)) = false)
    ∧ trySelectors (pageOfText "Compra: 850.50") sellSelectors = none
    ∧ matchUsd (bodyText (pageOfText "Compra: 850.50")) = none
    ∧ extractFromHtml asciiLower (some (pageOfText "Compra: 850.50")) "ARS"
        = ⟨some (.finite 850.5), some (.finite 850.5)⟩
    ∧ (extractFromHtml asciiLower (some (pageOfText "Compra: 850.50")) "ARS").sell ≠ none := by
  refine ⟨by decide, by decide!, by decide, by decide!, by decide!⟩


/-! ## The extractor: the labelled scan -/

theorem scanElement_of_truthy (toLowerCase : List Char → List Char) {st : PricePair}
    (hb : truthy st.buy = true) (hs : truthy st.sell = true) (raw : List Char) :
    scanElement toLowerCase st raw = st := by
  simp [scanElement, hb, hs]

theorem foldl_scanElement_of_truthy (toLowerCase : List Char → List Char) {st : PricePair}
    (hb : truthy st.buy = true) (hs : truthy st.sell = true) (texts : List (List Char)) :
    texts.foldl (scanElement toLowerCase) st = st := by
  induction texts with
  | nil => rfl
  | cons t ts ih => rw [List.foldl_cons, scanElement_of_truthy toLowerCase hb hs, ih]

theorem startsWith_append (lit post : List Char) : startsWith lit (lit ++ post) = true := by
  induction lit with
  | nil => rfl
  | cons p ps ih => simp [startsWith, ih]

theorem containsLiteral_append (pre lit post : List Char) :
    containsLiteral lit (pre ++ (lit ++ post)) = true := by
  induction pre with
  | nil =>
    cases h : lit ++ post with
    | nil =>
      have : lit = [] := (List.append_eq_nil.mp h).1
      rw [this]
      rfl
    | cons c cs =>
      rw [List.nil_append, containsLiteral, ← h, startsWith_append]
      rfl
  | cons c cs ih =>
    rw [List.cons_append, containsLiteral, ih]
    simp

theorem dropLiteralCI_append_none {lit q : List Char} (x : Char) (t : List Char)
    (hq : dropLiteralCI lit q = none) (hx : ∀ p ∈ lit, canonicalize p ≠ canonicalize x) :
    dropLiteralCI lit (q ++ x :: t) = none := by
  induction lit generalizing q with
  | nil => simp [dropLiteralCI] at hq
  | cons p ps ih =>
    cases q with
    | nil =>
      have := hx p (by simp)
      simp [dropLiteralCI, this]
    | cons c cs =>
      rw [List.cons_append, dropLiteralCI]
      rw [dropLiteralCI] at hq
      split
      · rename_i hpc
        rw [if_pos hpc] at hq
        exact ih hq (fun p' hp' => hx p' (by simp [hp']))
      · rfl

theorem dropLiteralCI_cons_append_none {p : Char} {ps : List Char} {c : Char} {cs : List Char}
    (x : Char) (t : List Char) (hq : dropLiteralCI (p :: ps) (c :: cs) = none)
    (hx : ∀ p' ∈ ps, canonicalize p' ≠ canonicalize x) :
    dropLiteralCI (p :: ps) (c :: cs ++ x :: t) = none := by
  rw [List.cons_append, dropLiteralCI]
  rw [dropLiteralCI] at hq
  split
  · rename_i hpc
    rw [if_pos hpc] at hq
    exact dropLiteralCI_append_none x t hq hx
  · rfl

theorem matchLabelAt_of_dropLiteralCI_none {label s : List Char}
    (h : dropLiteralCI label s = none) : matchLabelAt label s = none := by
  simp [matchLabelAt, h]

/-- The leftmost match does not start inside a stretch of text that does not hold the label,
when the character after the stretch cannot continue a label begun inside it. -/
theorem matchLabel_skip_absent {p : Char} {ps : List Char} (pre : List Char) (x : Char)
    (t : List Char) (hpre : containsLiteralCI (p :: ps) pre = false)
    (hx : ∀ p' ∈ ps, canonicalize p' ≠ canonicalize x) :
    matchLabel (p :: ps) (pre ++ x :: t) = matchLabel (p :: ps) (x :: t) := by
  induction pre with
  | nil => rfl
  | cons c cs ih =>
    rw [containsLiteralCI, Bool.or_eq_false_iff] at hpre
    have h1 : dropLiteralCI (p :: ps) (c :: cs) = none := by
      cases h : dropLiteralCI (p :: ps) (c :: cs) with
      | none => rfl
      | some r => rw [h] at hpre; exact absurd hpre.1 (by simp)
    have h2 := dropLiteralCI_cons_append_none x t h1 hx
    rw [List.cons_append, matchLabel, ← List.cons_append,
      matchLabelAt_of_dropLiteralCI_none h2]
    exact ih hpre.2

/-- The leftmost match does not start at a character that is not the first letter of the label. -/
theorem matchLabel_skip_other {p : Char} {ps : List Char} (u t : List Char)
    (hu : ∀ c ∈ u, canonicalize p ≠ canonicalize c) :
    matchLabel (p :: ps) (u ++ t) = matchLabel (p :: ps) t := by
  induction u with
  | nil => rfl
  | cons c cs ih =>
    have hc : canonicalize p ≠ canonicalize c := hu c (by simp)
    have h1 : dropLiteralCI (p :: ps) (c :: (cs ++ t)) = none := by
      simp [dropLiteralCI, hc]
    rw [List.cons_append, matchLabel, matchLabelAt_of_dropLiteralCI_none h1]
    exact ih (fun c' hc' => hu c' (by simp [hc']))

theorem dropLiteralCI_self_append (label rest : List Char) :
    dropLiteralCI label (label ++ rest) = some rest := by
  induction label with
  | nil => rfl
  | cons p ps ih => simp [dropLiteralCI, ih]

theorem not_separator_of_isNumberChar {c : Char} (h : isNumberChar c = true) :
    (c == ':' || isSpace c) = false := by
  have hs := isSpace_of_isNumberChar h
  have hc : c ≠ ':' := by
    rintro rfl
    exact absurd h (by decide)
  simp [hs, hc]

/-- At the label, the pattern of line 130 captures the run of `[0-9.,]` after `": "`. -/
theorem matchLabelAt_label (label num rest : List Char) (hnum : AllNumberChars num)
    (hne : num ≠ []) (hrest : rest.takeWhile isNumberChar = []) :
    matchLabelAt label (label ++ (':' :: ' ' :: (num ++ rest))) = some num := by
  have hdw : (':' :: ' ' :: (num ++ rest)).dropWhile (fun c => c == ':' || isSpace c)
      = num ++ rest := by
    cases num with
    | nil => exact absurd rfl hne
    | cons d ds =>
      have hd := not_separator_of_isNumberChar (hnum d (by simp))
      rw [List.dropWhile_cons_of_pos (by decide), List.dropWhile_cons_of_pos (by decide),
        List.cons_append, List.dropWhile_cons_of_neg (by simp [hd])]
  have htw : (num ++ rest).takeWhile isNumberChar = num := by
    rw [List.takeWhile_append_of_pos hnum, hrest, List.append_nil]
  have hemp : num.isEmpty = false := by
    cases num with
    | nil => exact absurd rfl hne
    | cons d ds => rfl
  simp only [matchLabelAt, dropLiteralCI_self_append, hdw, htw, hemp, Bool.false_eq_true,
    if_false]

theorem allNumberChars_renderDecimal {ip fp : List Char} (hi : AllDigits ip)
    (hf : AllDigits fp) : AllNumberChars (renderDecimal ip fp) := by
  unfold renderDecimal
  split
  · exact fun c hc => isNumberChar_of_isDigit (hi c hc)
  · intro c hc
    rcases List.mem_append.mp hc with h | h
    · exact isNumberChar_of_isDigit (hi c h)
    · rcases List.mem_cons.mp h with h | h
      · rw [h]; decide
      · exact isNumberChar_of_isDigit (hf c h)

theorem renderDecimal_ne_nil {ip : List Char} (fp : List Char) (hne : ip ≠ []) :
    renderDecimal ip fp ≠ [] := by
  unfold renderDecimal
  split
  · exact hne
  · simp

theorem comma_not_mem_renderDecimal {ip fp : List Char} (hi : AllDigits ip)
    (hf : AllDigits fp) : ',' ∉ renderDecimal ip fp := by
  unfold renderDecimal
  split
  · exact not_mem_of_allDigits hi (by decide)
  · intro hc
    rcases List.mem_append.mp hc with h | h
    · exact not_mem_of_allDigits hi (by decide) h
    · rcases List.mem_cons.mp h with h | h
      · exact absurd h (by decide)
      · exact not_mem_of_allDigits hf (by decide) h

theorem normalizeSeparators_of_no_comma {s : List Char} (h : ',' ∉ s) :
    normalizeSeparators s = s := by
  have hc : s.contains ',' = false := by simpa using h
  unfold normalizeSeparators
  rw [hc]
  simp only [Bool.false_and, Bool.false_eq_true, if_false]
  exact removeAll_eq_self h

theorem parseFloat_renderDecimal {ip fp : List Char} (hi : AllDigits ip) (hf : AllDigits fp)
    (hne : ip ≠ []) : parseFloat (renderDecimal ip fp) = toDouble (decimalValue ip fp) := by
  unfold renderDecimal
  cases fp with
  | nil => exact parseFloat_integer hi hne
  | cons d ds => exact parseFloat_decimal hi hf (Or.inl hne)

/-- A plain decimal number normalizes to its decimal value. -/
theorem parseCurrencyNumber_renderDecimal {ip fp : List Char} (hi : AllDigits ip)
    (hf : AllDigits fp) (hne : ip ≠ []) :
    parseCurrencyNumber (renderDecimal ip fp) = finiteOrNull (toDouble (decimalValue ip fp)) := by
  rw [parseCurrencyNumber_of_allNumberChars (allNumberChars_renderDecimal hi hf),
    normalizeSeparators_of_no_comma (comma_not_mem_renderDecimal hi hf),
    parseFloat_renderDecimal hi hf hne]

theorem canonicalize_of_isDigit {c : Char} (h : isDigit c = true) : canonicalize c = c := by
  simp only [isDigit, Bool.and_eq_true, decide_eq_true_eq] at h
  unfold canonicalize
  rw [if_neg (by simp only [Bool.and_eq_true, decide_eq_true_eq]; omega),
    if_neg (by simp only [beq_iff_eq]; omega)]

theorem canonicalize_of_isNumberChar {c : Char} (h : isNumberChar c = true) :
    canonicalize c = c := by
  simp only [isNumberChar, Bool.or_eq_true, beq_iff_eq] at h
  rcases h with (h | rfl) | rfl
  · exact canonicalize_of_isDigit h
  · decide
  · decide

theorem letter_ne_numberChar {p c : Char} (hp : isNumberChar (canonicalize p) = false)
    (hc : isNumberChar c = true) : canonicalize p ≠ canonicalize c := by
  rw [canonicalize_of_isNumberChar hc]
  intro e
  rw [e, hc] at hp
  exact Bool.noConfusion hp

/-- The labelled scan on a text `pre Compra: a Venta: b post`. -/
theorem scanField_labelled_text (pre a b post : List Char)
    (hc : containsLiteralCI "compra".data pre = false)
    (hv : containsLiteralCI "venta".data pre = false)
    (ha : AllNumberChars a) (hane : a ≠ []) (hb : AllNumberChars b) (hbne : b ≠ [])
    (hpost : post.takeWhile isNumberChar = []) (cur : Option JsNumber)
    (hcur : truthy cur = false) :
    scanField "compra".data cur
        (pre ++ "compra: ".data ++ a ++ " venta: ".data ++ b ++ post) = parseCurrencyNumber a
    ∧ scanField "venta".data cur
        (pre ++ "compra: ".data ++ a ++ " venta: ".data ++ b ++ post) = parseCurrencyNumber b := by
  have e1 : pre ++ "compra: ".data ++ a ++ " venta: ".data ++ b ++ post
      = pre ++ ("compra".data ++ (':' :: ' ' :: (a ++ (' ' :: ("venta".data
          ++ (':' :: ' ' :: (b ++ post))))))) := by
    simp [List.append_assoc]
  have e2 : pre ++ "compra: ".data ++ a ++ " venta: ".data ++ b ++ post
      = (pre ++ ("compra: ".data ++ a ++ [' '])) ++ ("venta".data ++ (':' :: ' ' :: (b ++ post))) := by
    simp [List.append_assoc]
  constructor
  · have hcont : containsLiteral "compra".data
        (pre ++ "compra: ".data ++ a ++ " venta: ".data ++ b ++ post) = true := by
      rw [e1]
      exact containsLiteral_append _ _ _
    have hm : matchLabel "compra".data
        (pre ++ "compra: ".data ++ a ++ " venta: ".data ++ b ++ post) = some a := by
      rw [e1]
      have hskip := @matchLabel_skip_absent 'c' "ompra".data pre 'c'
        ("ompra".data ++ (':' :: ' ' :: (a ++ (' ' :: ("venta".data
          ++ (':' :: ' ' :: (b ++ post))))))) hc (by decide)
      have hat := matchLabelAt_label "compra".data a
        (' ' :: ("venta".data ++ (':' :: ' ' :: (b ++ post)))) ha hane
        (by rw [List.takeWhile_cons_of_neg (by decide)])
      have hml : matchLabel "compra".data ("compra".data ++ (':' :: ' ' :: (a ++ (' ' ::
          ("venta".data ++ (':' :: ' ' :: (b ++ post))))))) = some a := by
        show (match matchLabelAt "compra".data ("compra".data ++ (':' :: ' ' :: (a ++ (' ' ::
          ("venta".data ++ (':' :: ' ' :: (b ++ post))))))) with
          | some g => some g
          | none => _) = some a
        rw [hat]
      exact hskip.trans hml
    simp only [scanField, hcur, hcont, hm, Bool.not_false, Bool.and_self, if_true]
  · have hcont : containsLiteral "venta".data
        (pre ++ "compra: ".data ++ a ++ " venta: ".data ++ b ++ post) = true := by
      rw [e2]
      exact containsLiteral_append _ _ _
    have hm : matchLabel "venta".data
        (pre ++ "compra: ".data ++ a ++ " venta: ".data ++ b ++ post) = some b := by
      rw [e1]
      have hskip := @matchLabel_skip_absent 'v' "enta".data pre 'c'
        ("ompra".data ++ (':' :: ' ' :: (a ++ (' ' :: ("venta".data
          ++ (':' :: ' ' :: (b ++ post))))))) hv (by decide)
      have hother := @matchLabel_skip_other 'v' "enta".data
        ("compra: ".data ++ a ++ [' ']) ("venta".data ++ (':' :: ' ' :: (b ++ post)))
        (by
          intro c hmem
          rcases List.mem_append.mp hmem with h | h
          · rcases List.mem_append.mp h with h | h
            · have hlab : ∀ c ∈ "compra: ".data, canonicalize 'v' ≠ canonicalize c := by decide
              exact hlab c h
            · exact letter_ne_numberChar (by decide) (ha c h)
          · rw [List.mem_singleton.mp h]
            decide)
      have hat := matchLabelAt_label "venta".data b post hb hbne hpost
      have hml : matchLabel "venta".data ("venta".data ++ (':' :: ' ' :: (b ++ post)))
          = some b := by
        show (match matchLabelAt "venta".data ("venta".data ++ (':' :: ' ' :: (b ++ post))) with
          | some g => some g
          | none => _) = some b
        rw [hat]
      have e3 : 'c' :: ("ompra".data ++ (':' :: ' ' :: (a ++ (' ' :: ("venta".data
          ++ (':' :: ' ' :: (b ++ post)))))))
          = ("compra: ".data ++ a ++ [' ']) ++ ("venta".data ++ (':' :: ' ' :: (b ++ post))) := by
        simp [List.append_assoc]
      have e4 : "compra".data ++ (':' :: ' ' :: (a ++ (' ' :: ("venta".data
          ++ (':' :: ' ' :: (b ++ post))))))
          = 'c' :: ("ompra".data ++ (':' :: ' ' :: (a ++ (' ' :: ("venta".data
          ++ (':' :: ' ' :: (b ++ post))))))) := rfl
      rw [e4]
      refine hskip.trans ?_
      rw [e3]
      exact hother.trans hml
    simp only [scanField, hcur, hcont, hm, Bool.not_false, Bool.and_self, if_true]

theorem extractFromHtml_of_strategy1 (toLowerCase : List Char → List Char) (dom : Dom)
    (code : String) {v w : JsNumber} (h : strategy1 toLowerCase dom = ⟨some v, some w⟩)
    (htv : truthy (some v) = true) (htw : truthy (some w) = true) :
    extractFromHtml toLowerCase (some dom) code = ⟨some v, some w⟩ := by
  have h2 : afterStrategy2 toLowerCase dom = ⟨some v, some w⟩ := by
    simp only [afterStrategy2, strategy2, h, orElse_of_truthy _ htv, orElse_of_truthy _ htw]
  rw [extractFromHtml_some, h2]
  simp [htv, htw]

theorem ne_nil_of_containsLiteral {lit text : List Char} (hlit : lit ≠ [])
    (h : containsLiteral lit text = true) : text ≠ [] := by
  rintro rfl
  cases lit with
  | nil => exact hlit rfl
  | cons p ps => simp [containsLiteral, startsWith] at h

/-- C1, as the code has it: when the text of the first element (the whole document) reads,
after line 126, `pre compra: a venta: b post` with plain decimals `a` and `b` whose nearest
doubles are finite and non-zero, no label inside `pre` and no digit, period or comma at the
head of `post`, the extractor returns the double nearest to `a` as buy and the double
nearest to `b` as sell. -/
theorem extractFromHtml_labelled_pair (toLowerCase : List Char → List Char) (dom : Dom)
    (code : String) (first : Node) (rest : List Node) (pre post ip1 fp1 ip2 fp2 : List Char)
    (v1 v2 : ℚ)
    (hdoc : domElements dom = first :: rest)
    (htext : normalizeText toLowerCase (textContent first)
      = pre ++ "compra: ".data ++ renderDecimal ip1 fp1 ++ " venta: ".data
          ++ renderDecimal ip2 fp2 ++ post)
    (hc : containsLiteralCI "compra".data pre = false)
    (hv : containsLiteralCI "venta".data pre = false)
    (hpost : post.takeWhile isNumberChar = [])
    (h1 : ip1 ≠ [] ∧ AllDigits ip1 ∧ AllDigits fp1)
    (h2 : ip2 ≠ [] ∧ AllDigits ip2 ∧ AllDigits fp2)
    (hd1 : toDouble (decimalValue ip1 fp1) = JsNumber.finite v1) (hnz1 : v1 ≠ 0)
    (hd2 : toDouble (decimalValue ip2 fp2) = JsNumber.finite v2) (hnz2 : v2 ≠ 0) :
    extractFromHtml toLowerCase (some dom) code
      = ⟨some (JsNumber.finite v1), some (JsNumber.finite v2)⟩ := by
  obtain ⟨hne1, hi1, hf1⟩ := h1
  obtain ⟨hne2, hi2, hf2⟩ := h2
  have hscan := scanField_labelled_text pre (renderDecimal ip1 fp1) (renderDecimal ip2 fp2) post
    hc hv (allNumberChars_renderDecimal hi1 hf1) (renderDecimal_ne_nil fp1 hne1)
    (allNumberChars_renderDecimal hi2 hf2) (renderDecimal_ne_nil fp2 hne2) hpost none rfl
  rw [parseCurrencyNumber_renderDecimal hi1 hf1 hne1,
    parseCurrencyNumber_renderDecimal hi2 hf2 hne2, hd1, hd2, ← htext] at hscan
  have hnonempty : (normalizeText toLowerCase (textContent first)).isEmpty = false := by
    have hcont : containsLiteral "compra".data (normalizeText toLowerCase (textContent first))
        = true := by
      rw [htext]
      have e : pre ++ "compra: ".data ++ renderDecimal ip1 fp1 ++ " venta: ".data
          ++ renderDecimal ip2 fp2 ++ post
          = pre ++ ("compra".data ++ (':' :: ' ' :: (renderDecimal ip1 fp1 ++ " venta: ".data
            ++ renderDecimal ip2 fp2 ++ post))) := by
        simp [List.append_assoc]
      rw [e]
      exact containsLiteral_append _ _ _
    have := ne_nil_of_containsLiteral (by decide) hcont
    cases hT : normalizeText toLowerCase (textContent first) with
    | nil => exact absurd hT this
    | cons c cs => rfl
  have hfirst : scanElement toLowerCase ⟨none, none⟩ (textContent first)
      = ⟨some (JsNumber.finite v1), some (JsNumber.finite v2)⟩ := by
    simp only [scanElement, truthy, Bool.false_and, Bool.false_eq_true, if_false, hnonempty,
      hscan.1, hscan.2]
    rfl
  have hs1 : strategy1 toLowerCase dom
      = ⟨some (JsNumber.finite v1), some (JsNumber.finite v2)⟩ := by
    unfold strategy1
    rw [hdoc, List.map_cons, List.foldl_cons, hfirst]
    exact foldl_scanElement_of_truthy toLowerCase ((truthy_some_iff _).mpr hnz1)
      ((truthy_some_iff _).mpr hnz2) _
  exact extractFromHtml_of_strategy1 toLowerCase dom code hs1 ((truthy_some_iff _).mpr hnz1)
    ((truthy_some_iff _).mpr hnz2)

/-- Instance of C1 named by the specification: the text `Compra: 850.50 Venta: 870.25`
yields buy 850.50 and sell 870.25. -/
theorem extractFromHtml_labelled_pair_witness :
    extractFromHtml asciiLower (some (pageOfText "Compra: 850.50 Venta: 870.25")) "ARS"
      = ⟨some (.finite 850.5), some (.finite 870.25)⟩ :=
  extractFromHtml_labelled_pair asciiLower (pageOfText "Compra: 850.50 Venta: 870.25")
    "ARS" (.element "html" [] [.element "head" [] [],
      .element "body" [] [.text "Compra: 850.50 Venta: 870.25"]])
    [.element "head" [] [], .element "body" [] [.text "Compra: 850.50 Venta: 870.25"]]
    [] [] "850".data "50".data "870".data "25".data 850.5 870.25 rfl (by decide) (by decide)
    (by decide) (by decide) (by decide) (by decide)
    (by decide!) (by norm_num) (by decide!) (by norm_num)

/-- C1 fails as stated.  On the text `Compra: 1000...0 Venta: 5`, the 1 followed by 400
zeros, the value of the first decimal is `10^400`; `parseFloat` gives `Infinity`, line 80
gives `null`, and the extractor returns buy = 5, taken by Strategy 4.  On the text
`Compra: 0.000...01 Venta: 5`, with 400 zeros after the period, the first decimal is not
zero but parses to 0, which is falsy, and buy is 5 again. -/
theorem extractFromHtml_labelled_not_kept :
    extractFromHtml asciiLower
        (some (pageOfText ("Compra: 1" ++ repeated 400 '0' ++ " Venta: 5"))) "ARS"
      = ⟨some (.finite 5), some (.finite 5)⟩
    ∧ decimalValue ('1' :: (repeated 400 '0').data) [] = 10 ^ 400
    ∧ parseCurrencyNumber ('1' :: (repeated 400 '0').data) = none
    ∧ extractFromHtml asciiLower
        (some (pageOfText ("Compra: 0." ++ repeated 400 '0' ++ "1 Venta: 5"))) "ARS"
      = ⟨some (.finite 5), some (.finite 5)⟩
    ∧ decimalValue "0".data ((repeated 400 '0').data ++ ['1']) = 1 / 10 ^ 401
    ∧ parseCurrencyNumber ("0.".data ++ (repeated 400 '0').data ++ ['1']) = some (.finite 0) := by
  refine ⟨by decide!, by decide!, by decide!, by decide!, by decide!, by decide!⟩


/-! ## The extractor: the free numeric text of the specification -/

theorem pricePair_eq_of_fields {st : PricePair} {b s : Option JsNumber} (hb : st.buy = b)
    (hs : st.sell = s) : st = ⟨b, s⟩ := by
  cases st
  simp only at hb hs
  rw [hb, hs]

theorem afterStrategy3_of_nothing (toLowerCase : List Char → List Char) (dom : Dom)
    (hcompra : ∀ el ∈ domElements dom,
      containsLiteral "compra".data (normalizeText toLowerCase (textContent el)) = false)
    (hventa : ∀ el ∈ domElements dom,
      containsLiteral "venta".data (normalizeText toLowerCase (textContent el)) = false)
    (hbuy : trySelectors dom buySelectors = none)
    (hsell : trySelectors dom sellSelectors = none)
    (husd : matchUsd (bodyText dom) = none) :
    afterStrategy3 toLowerCase dom = ⟨none, none⟩ := by
  have h1 : strategy1 toLowerCase dom = ⟨none, none⟩ :=
    pricePair_eq_of_fields (strategy1_buy_of_no_label toLowerCase dom hcompra)
      (strategy1_sell_of_no_label toLowerCase dom hventa)
  simp only [afterStrategy3, strategy3, husd, afterStrategy2, strategy2, h1, hbuy, hsell,
    orElse, truthy]
  rfl

/-- C4, as the code has it: with no labels, no matching selectors and the body text
`... 2024 ... 875.30 ... 880.10 ...`, the first two candidates in the order of the text are
2024 and 875.30; the extractor returns buy = 2024 and sell = 875.30. -/
theorem extractFromHtml_free_text (toLowerCase : List Char → List Char) (dom : Dom)
    (code : String)
    (hcompra : ∀ el ∈ domElements dom,
      containsLiteral "compra".data (normalizeText toLowerCase (textContent el)) = false)
    (hventa : ∀ el ∈ domElements dom,
      containsLiteral "venta".data (normalizeText toLowerCase (textContent el)) = false)
    (hbuy : trySelectors dom buySelectors = none)
    (hsell : trySelectors dom sellSelectors = none)
    (hbody : bodyText dom = "... 2024 ... 875.30 ... 880.10 ...".data) :
    extractFromHtml toLowerCase (some dom) code
      = ⟨some (.finite 2024), some (toDouble 875.3)⟩ := by
  have husd : matchUsd (bodyText dom) = none := by
    rw [hbody]
    decide
  have hC : specCandidates (bodyText dom)
      = [.finite 2024, toDouble 875.3, toDouble 880.1] := by
    rw [hbody]
    decide!
  rw [extractFromHtml_of_unresolved toLowerCase dom code
    (afterStrategy3_of_nothing toLowerCase dom hcompra hventa hbuy hsell husd), hC]
  rfl

/-- Instance of C4 on the page whose body is the text of the specification. -/
theorem extractFromHtml_free_text_witness :
    extractFromHtml asciiLower (some (pageOfText "... 2024 ... 875.30 ... 880.10 ...")) "ARS"
      = ⟨some (.finite 2024), some (toDouble 875.3)⟩ :=
  extractFromHtml_free_text asciiLower (pageOfText "... 2024 ... 875.30 ... 880.10 ...") "ARS"
    (by decide) (by decide) (by decide!) (by decide!) (by decide)

/-- C4 fails as stated: on the free text of the specification the extractor does not return
buy = 875.30 and sell = 880.10, because 2024 lies inside the plausibility band and comes
first. -/
theorem extractFromHtml_free_text_not_spec :
    (extractFromHtml asciiLower (some (pageOfText "... 2024 ... 875.30 ... 880.10 ...")) "ARS").buy
        = some (.finite 2024)
    ∧ extractFromHtml asciiLower (some (pageOfText "... 2024 ... 875.30 ... 880.10 ...")) "ARS"
        ≠ ⟨some (toDouble 875.3), some (toDouble 880.1)⟩ := by
  refine ⟨by decide!, by decide!⟩

end UsdConverter
